import Mathlib

/-!
Verification of the frontier crawler of the Knowledge-builder scraper
(src/scrapper/crawler.py).

The development shallowly embeds the crawler's URL layer (normalize_url,
same_site, build_ctx, pattern filtering) and its concurrent BFS worker pool
(crawl_bfs, crawl_site).  Strings are Lean strings; Python's cooperative
asyncio scheduling is embedded as a small-step transition system whose atomic
steps are exactly the code segments between await points of crawl_bfs's
worker coroutine, with the scheduler's choices given as an explicit action
list.  Third-party collaborators are modelled at the level the crawler
observes them: the network (httpx fetches, sitemap/feed discovery, and
inpage_discover's HTML parsing) is a parameter (a site graph and a seed
list), urllib.parse's urlsplit/urlunsplit component algebra is embedded
directly from its splitting algorithm (ASCII case model, no IPv6-bracket
validation), and re.search is modelled for literal (metacharacter-free)
patterns as substring search.
-/

set_option maxHeartbeats 1000000

namespace Scrapper

/-! ## Characters and Python string primitives -/

/-- Python str.lower for the ASCII range, applied characterwise. -/
def pyLower (s : String) : String := ⟨s.data.map Char.toLower⟩

/-- Python's "c.isascii() and c.isalpha()" test used by urlsplit's scheme
detection. -/
def isAsciiAlpha (c : Char) : Bool :=
  (65 ≤ c.toNat && c.toNat ≤ 90) || (97 ≤ c.toNat && c.toNat ≤ 122)

/-- ASCII digit test. -/
def isAsciiDigit (c : Char) : Bool := 48 ≤ c.toNat && c.toNat ≤ 57

/-- Membership in urllib.parse.scheme_chars (letters, digits, plus, dash,
dot). -/
def schemeChar (c : Char) : Bool :=
  isAsciiAlpha c || isAsciiDigit c || c == '+' || c == '-' || c == '.'

/-- True for characters that may appear in a netloc: everything except the
three delimiters slash, question mark and hash that _splitnetloc stops at. -/
def notDelim (c : Char) : Bool := !(c == '/' || c == '?' || c == '#')

/-- Split a character list at the first occurrence of the delimiter d,
returning the parts before and after it; none when d does not occur.
Models Python str.find plus slicing as used by urlsplit. -/
def splitAtChar (d : Char) : List Char → Option (List Char × List Char)
  | [] => none
  | c :: cs =>
    if c = d then some ([], cs)
    else
      match splitAtChar d cs with
      | none => none
      | some (l, r) => some (c :: l, r)

/-- Split at the first occurrence of d, or return the whole input with an
empty second component when d does not occur (Python str.split(d, 1)). -/
def splitOpt (d : Char) (cs : List Char) : List Char × List Char :=
  match splitAtChar d cs with
  | some p => p
  | none => (cs, [])

/-- Does the second list start with the first one? -/
def startsWithChars : List Char → List Char → Bool
  | [], _ => true
  | _ :: _, [] => false
  | n :: ns, h :: hs => n == h && startsWithChars ns hs

/-- Does the needle occur as a contiguous run inside the haystack? -/
def containsChars (needle : List Char) : List Char → Bool
  | [] => startsWithChars needle []
  | c :: hs => startsWithChars needle (c :: hs) || containsChars needle hs

/-- Python "pat in s" / re.search for a literal pattern: substring test. -/
def containsSub (s pat : String) : Bool := containsChars pat.data s.data

/-- The characters urlsplit strips from the left of its input
(WHATWG C0 controls and space: code points 0 through 0x20). -/
def isC0OrSpace (c : Char) : Bool := c.toNat ≤ 32

/-- The unsafe bytes (tab, carriage return, line feed) that urlsplit removes
everywhere in its input. -/
def isTabCrLf (c : Char) : Bool := c == '\t' || c == '\r' || c == '\n'

/-- urlsplit's input preprocessing: lstrip C0 controls and spaces, then
remove every tab, carriage return and line feed. -/
def preprocess (cs : List Char) : List Char :=
  (cs.dropWhile isC0OrSpace).filter (fun c => !(isTabCrLf c))

/-- Python str.endswith. -/
def strEndsWith (s suffix : String) : Bool :=
  startsWithChars suffix.data.reverse s.data.reverse

/-- Models "any(re.search(p, u) for p in pats or [])" from crawl_bfs's
worker, for exclusion patterns without regex metacharacters (such as the
spec's "/privacy"): each pattern matches as a substring of the raw URL. -/
def matchesAny (pats : List String) (u : String) : Bool :=
  pats.any (fun p => containsSub u p)

/-! ## urllib.parse component model -/

/-- The five components of urllib.parse.urlsplit.  The crawler's
normalize_url round-trips through urlparse/urlunparse; since it passes the
params component through unchanged and urlunparse re-joins path and params
with the same ";" it split them at, path here stands for Python's
path-plus-params and the split is observationally identical. -/
structure UrlParts where
  scheme : String
  netloc : String
  path : String
  query : String
  fragment : String
deriving DecidableEq, Repr

/-- urlsplit's scheme detection: the text before the first colon is a scheme
when it is nonempty, starts with an ASCII letter and consists of scheme
characters; the scheme is lowercased at parse time as CPython does. -/
def splitScheme (cs : List Char) : Option (List Char × List Char) :=
  match splitAtChar ':' cs with
  | none => none
  | some (before, after) =>
    match before with
    | [] => none
    | c0 :: rest =>
      if isAsciiAlpha c0 && rest.all schemeChar then
        some ((c0 :: rest).map Char.toLower, after)
      else none

/-- After the scheme, a netloc is present exactly when the rest starts with
two slashes; it extends to the first slash, question mark or hash
(urllib.parse._splitnetloc). -/
def splitNetloc (rest : List Char) : List Char × List Char :=
  match rest with
  | '/' :: '/' :: tail => (tail.takeWhile notDelim, tail.dropWhile notDelim)
  | _ => ([], rest)

/-- urllib.parse.urlsplit: scheme, then optional netloc, then the fragment
is split off at the first hash and the query at the first question mark.
CPython's ValueError on malformed bracketed (IPv6) netlocs is outside this
model; on such inputs normalize_url's try/except returns its input anyway. -/
def urlsplit (url : String) : UrlParts :=
  let cs := preprocess url.data
  let sp := match splitScheme cs with
    | some p => p
    | none => ([], cs)
  let nl := splitNetloc sp.2
  let fr := splitOpt '#' nl.2
  let pq := splitOpt '?' fr.1
  ⟨⟨sp.1⟩, ⟨nl.1⟩, ⟨pq.1⟩, ⟨pq.2⟩, ⟨fr.2⟩⟩

/-- urllib.parse.uses_netloc: the schemes whose URLs conventionally carry a
netloc; urlunsplit re-emits "//" for them even when the netloc is empty. -/
def uses_netloc : List String :=
  ["", "ftp", "http", "gopher", "nntp", "telnet", "imap", "wais", "file",
   "mms", "https", "shttp", "snews", "prospero", "rtsp", "rtsps", "rtspu",
   "rsync", "svn", "svn+ssh", "sftp", "nfs", "git", "git+ssh", "ws", "wss"]

/-- urllib.parse.urlunsplit (equally urlunparse after path/params
re-joining): emit "//" and the netloc when a netloc is present, or when the
scheme is one of uses_netloc and the path does not already begin with two
slashes; root a nonempty relative path with a slash in that case; then
prepend "scheme:" and append "?query" and "#fragment" when nonempty. -/
def urlunsplit (p : UrlParts) : String :=
  let base := p.path.data
  let withNet :=
    if p.netloc.data ≠ [] ∨
       (p.scheme.data ≠ [] ∧ p.scheme ∈ uses_netloc ∧
        base.take 2 ≠ ['/', '/']) then
      '/' :: '/' :: (p.netloc.data ++
        (if base ≠ [] ∧ base.take 1 ≠ ['/'] then '/' :: base else base))
    else base
  let withScheme :=
    if p.scheme.data ≠ [] then p.scheme.data ++ ':' :: withNet else withNet
  let withQuery :=
    if p.query.data ≠ [] then withScheme ++ '?' :: p.query.data else withScheme
  let withFrag :=
    if p.fragment.data ≠ [] then withQuery ++ '#' :: p.fragment.data
    else withQuery
  ⟨withFrag⟩

/-- normalize_url from src/scrapper/crawler.py lines 27-39: a URL without a
scheme is returned unchanged; otherwise the fragment is dropped, scheme and
netloc are lowercased, an empty path becomes "/", and params and query pass
through (params are folded into path here, see UrlParts). -/
def normalize_url (url : String) : String :=
  let p := urlsplit url
  if p.scheme = "" then url
  else
    urlunsplit
      { scheme := pyLower p.scheme, netloc := pyLower p.netloc,
        path := if p.path = "" then "/" else p.path,
        query := p.query, fragment := "" }

/-- The component shapes on which normalize_url's unparse step loses
nothing: a nonempty netloc, or a path that neither begins with "//" (which
the unparse would fuse into a fake netloc) nor, for a scheme of
uses_netloc, is a nonempty relative path (which the unparse would root with
"/"). -/
def NormSafe (p : UrlParts) : Prop :=
  p.netloc ≠ "" ∨ (p.path.data.take 2 ≠ ['/', '/'] ∧
    (p.scheme ∈ uses_netloc → p.path = "" ∨ p.path.data.head? = some '/'))

/-- The post-scheme stages of urlsplit, as a function of the scheme and the
remaining characters. -/
def restParts (scheme : String) (rest : List Char) : UrlParts :=
  let nl := splitNetloc rest
  let fr := splitOpt '#' nl.2
  let pq := splitOpt '?' fr.1
  ⟨scheme, ⟨nl.1⟩, ⟨pq.1⟩, ⟨pq.2⟩, ⟨fr.2⟩⟩

/-- The "?query" tail urlunsplit appends for a nonempty query. -/
def qpart (q : List Char) : List Char := if q ≠ [] then '?' :: q else []

/-! ## Crawl context and scope policy -/

/-- CrawlContext from src/scrapper/crawler.py lines 20-24; the Python set of
allowed hosts is carried as a list, membership being all that is ever asked
of it. -/
structure CrawlContext where
  root : String
  root_host : String
  allowed_hosts : List String
deriving DecidableEq, Repr

/-- same_site from src/scrapper/crawler.py lines 42-44: the URL's host,
lowercased, either is one of the allowed hosts or ends with "." followed by
the root host. -/
def same_site (url : String) (ctx : CrawlContext) : Bool :=
  let host := pyLower (urlsplit url).netloc
  decide (host ∈ ctx.allowed_hosts) || strEndsWith host ("." ++ ctx.root_host)

/-- Split a character list on the dot character (Python str.split(".")). -/
def splitOnDot : List Char → List (List Char)
  | [] => [[]]
  | c :: rest =>
    if c = '.' then [] :: splitOnDot rest
    else
      match splitOnDot rest with
      | [] => [[c]]
      | l :: ls => (c :: l) :: ls

/-- extract_domain from src/scrapper/crawler.py lines 83-86.  The tldextract
library it calls is modelled for hosts whose public suffix is a single label
(such as ".com"): the registrable domain is the last two dot-separated
labels of the URL's host.  This covers every host the claims mention. -/
def extract_domain (url : String) : String :=
  let host := pyLower (urlsplit url).netloc
  let labels := (splitOnDot host.data).filter (fun l => l ≠ [])
  match labels.reverse with
  | suffix :: dom :: _ => ⟨dom⟩ ++ "." ++ (⟨suffix⟩ : String)
  | [l] => (⟨l⟩ : String)
  | [] => ""

/-- build_ctx from src/scrapper/crawler.py lines 89-94. -/
def build_ctx (root_url : String) : CrawlContext :=
  let host := pyLower (urlsplit root_url).netloc
  let root_host := extract_domain root_url
  { root := normalize_url root_url, root_host := root_host,
    allowed_hosts := [host, root_host, "www." ++ root_host] }

/-! ## The concurrent BFS crawl as a transition system

crawl_bfs (src/scrapper/crawler.py lines 163-237) runs `concurrency` worker
coroutines on asyncio's single-threaded cooperative event loop.  Code
between awaits runs atomically; the worker's only suspension points are the
queue get (asyncio.wait_for always yields) and the fetch (the semaphore
never blocks here since at most `concurrency` workers hold at most
`concurrency` permits, and Queue.put on an unbounded queue does not yield).
The worker loop therefore decomposes into exactly these atomic steps:

* receive: a worker blocked on the queue (it has already passed the loop
  guard `len(results) < max_pages`) is handed the head URL and runs the
  seen-check, seen insertion, scope filter and exclusion filter; it either
  starts a fetch or skips, and on a skip it atomically re-evaluates the
  loop guard and either blocks on the queue again or exits.
* finish: a fetching worker's fetch completes.  A failed or non-HTML
  response is discarded; otherwise the URL is added to results, the cap is
  checked (a break exits the worker), and the page's discovered in-scope
  unseen links are enqueued, after which the loop guard (necessarily still
  true, as nothing ran in between) puts the worker back on the queue.
* idle: a worker blocked on an empty queue times out (1 second) and exits.

The network is the model's parameter: `graph u = some links` means fetching
u yields an HTML page whose inpage_discover output (absolute normalized
URLs, in set-iteration order) is `links`; `graph u = none` means a network
error, an HTTP status of 400 or more, or a non-HTML content type.
`seedUrls` is the list of sitemap/feed discoveries (`list(seed_urls)`, in
set-iteration order).  The scheduler's choices form an explicit action
list; a run is any prefix of scheduler behaviour, and a crawl is complete
when every worker is done.  fetchLog is ghost instrumentation recording
each URL passed to fetch, in order. -/

/-- One worker's control point: blocked on the frontier queue, awaiting the
fetch of a URL, or exited. -/
inductive WStatus
  | waitingGet
  | fetching (url : String)
  | done
deriving DecidableEq, Repr

/-- The crawl entry point's inputs (crawl_site's signature plus the
network's behaviour). -/
structure CrawlConfig where
  rootUrl : String
  maxPages : Nat
  concurrency : Nat
  includePatterns : List String
  excludePatterns : List String
  graph : String → Option (List String)
  seedUrls : List String

/-- The shared mutable state of crawl_bfs: the frontier queue, the seen and
results sets (as duplicate-free lists), the workers' control points, and
the ghost log of fetched URLs. -/
structure BfsState where
  queue : List String
  seen : List String
  results : List String
  workers : List WStatus
  fetchLog : List String
deriving DecidableEq, Repr

/-- Python set.add: insert unless present. -/
def insertSet (u : String) (l : List String) : List String :=
  if u ∈ l then l else u :: l

/-- The seed cap of crawl_bfs line 176: `max(100, max_pages // 2)`. -/
def seedBound (maxPages : Nat) : Nat := max 100 (maxPages / 2)

/-- The initial crawl_bfs state: the frontier holds the normalized root and
then at most seedBound seed URLs; workers that pass the initial loop guard
block on the queue (with a zero budget they exit at once). -/
def initState (cfg : CrawlConfig) : BfsState :=
  { queue := (build_ctx cfg.rootUrl).root ::
      cfg.seedUrls.take (seedBound cfg.maxPages),
    seen := [], results := [],
    workers := List.replicate cfg.concurrency
      (if 0 < cfg.maxPages then WStatus.waitingGet else WStatus.done),
    fetchLog := [] }

/-- The worker's loop guard `while len(results) < max_pages`, evaluated
when a worker returns to the top of its loop: block on the queue again or
exit. -/
def afterSkip (cfg : CrawlConfig) (results : List String) : WStatus :=
  if results.length < cfg.maxPages then WStatus.waitingGet else WStatus.done

/-- Worker i is handed the queue head (crawl_bfs lines 186-206): discard if
seen; otherwise mark seen, then either skip (scope or exclusion failure,
re-evaluating the loop guard) or issue the fetch. -/
def recvStep (cfg : CrawlConfig) (s : BfsState) (i : Nat) : Option BfsState :=
  match s.workers[i]? with
  | some WStatus.waitingGet =>
    match s.queue with
    | [] => none
    | u :: q =>
      if u ∈ s.seen then
        some { s with
          queue := q,
          workers := s.workers.set i (afterSkip cfg s.results) }
      else
        if same_site u (build_ctx cfg.rootUrl) &&
           !(matchesAny cfg.excludePatterns u) then
          some { s with
            queue := q,
            seen := u :: s.seen,
            workers := s.workers.set i (WStatus.fetching u),
            fetchLog := s.fetchLog ++ [u] }
        else
          some { s with
            queue := q,
            seen := u :: s.seen,
            workers := s.workers.set i (afterSkip cfg s.results) }
  | _ => none

/-- Worker i's fetch completes (crawl_bfs lines 206-232): discard failures
and non-HTML; otherwise add to results, break if the cap is reached, else
enqueue the page's in-scope unseen links and loop. -/
def finishStep (cfg : CrawlConfig) (s : BfsState) (i : Nat) :
    Option BfsState :=
  match s.workers[i]? with
  | some (WStatus.fetching u) =>
    match cfg.graph u with
    | none => some { s with workers := s.workers.set i (afterSkip cfg s.results) }
    | some links =>
      let results' := insertSet u s.results
      if cfg.maxPages ≤ results'.length then
        some { s with
          results := results',
          workers := s.workers.set i WStatus.done }
      else
        some { s with
          results := results',
          queue := s.queue ++ links.filter
            (fun l => same_site l (build_ctx cfg.rootUrl) &&
              !(decide (l ∈ s.seen))),
          workers := s.workers.set i WStatus.waitingGet }
  | _ => none

/-- Worker i's queue get times out while the queue is empty (crawl_bfs
lines 186-188): the worker exits. -/
def idleStep (s : BfsState) (i : Nat) : Option BfsState :=
  match s.workers[i]? with
  | some WStatus.waitingGet =>
    if s.queue = [] then some { s with workers := s.workers.set i WStatus.done }
    else none
  | _ => none

/-- A scheduler decision: resume worker i at one of its suspension points. -/
inductive CrawlAct
  | recv (i : Nat)
  | finish (i : Nat)
  | idle (i : Nat)
deriving DecidableEq, Repr

/-- One atomic step of the crawl under a scheduler decision; none when the
decision is not enabled in the given state. -/
def crawlStep (cfg : CrawlConfig) (s : BfsState) : CrawlAct → Option BfsState
  | CrawlAct.recv i => recvStep cfg s i
  | CrawlAct.finish i => finishStep cfg s i
  | CrawlAct.idle i => idleStep s i

/-- Run a schedule from a state; none when some decision is not enabled. -/
def runFrom (cfg : CrawlConfig) (s : BfsState) :
    List CrawlAct → Option BfsState
  | [] => some s
  | a :: rest =>
    match crawlStep cfg s a with
    | none => none
    | some s' => runFrom cfg s' rest

/-- Run a schedule from the initial crawl_bfs state. -/
def runCrawl (cfg : CrawlConfig) (acts : List CrawlAct) : Option BfsState :=
  runFrom cfg (initState cfg) acts

/-- Every worker has exited: asyncio.gather returns and crawl_bfs
completes. -/
def allDone (s : BfsState) : Bool :=
  s.workers.all (fun w => w == WStatus.done)

/-- The final seed merge of crawl_site lines 258-262: add seed URLs while
the accumulated set stays below max_pages, stopping at the first overflow. -/
def mergeSeeds (maxPages : Nat) (allUrls : List String) :
    List String → List String
  | [] => allUrls
  | u :: rest =>
    if maxPages ≤ allUrls.length then allUrls
    else mergeSeeds maxPages (insertSet u allUrls) rest

/-- Code-point lexicographic comparison of character lists, as Python
compares strings. -/
def charsLe : List Char → List Char → Bool
  | [], _ => true
  | _ :: _, [] => false
  | a :: as, b :: bs =>
    if a < b then true else if b < a then false else charsLe as bs

/-- Python string comparison for sorted(). -/
def strLe (a b : String) : Bool := charsLe a.data b.data

/-- Insert into a sorted list. -/
def insertSorted (u : String) : List String → List String
  | [] => [u]
  | v :: vs => if strLe u v then u :: v :: vs else v :: insertSorted u vs

/-- Python sorted() on strings, via insertion sort. -/
def sortStrings (l : List String) : List String := l.foldr insertSorted []

/-- crawl_site (src/scrapper/crawler.py lines 240-268) for a given
scheduler behaviour of its crawl_bfs call: run the BFS, merge the seed
discoveries under the cap, fall back to the bare root URL when nothing was
found, and sort.  The sitemap/feed discovery performed here and the one
inside crawl_bfs are the same network interaction, so both read
cfg.seedUrls. -/
def crawl_site (cfg : CrawlConfig) (acts : List CrawlAct) :
    Option (List String) :=
  (runCrawl cfg acts).map (fun s =>
    let allUrls := mergeSeeds cfg.maxPages s.results cfg.seedUrls
    let allUrls2 := if allUrls.isEmpty then [cfg.rootUrl] else allUrls
    sortStrings allUrls2)

/-! ## Predicates and measures used by the verification -/

/-- No tab, carriage return or line feed among the characters (true of
every component urlsplit produces, since its preprocessing removes them). -/
def CharsOk (l : List Char) : Prop := ∀ c ∈ l, isTabCrLf c = false

/-- A well-formed, already-lowercased scheme: nonempty, led by an ASCII
letter, all scheme characters, fixed by lowercasing. -/
def GoodScheme : List Char → Prop
  | [] => False
  | c :: rest =>
    isAsciiAlpha c = true ∧ (∀ x ∈ c :: rest, schemeChar x = true) ∧
    (c :: rest).map Char.toLower = c :: rest

/-- The shape of component records on which urlunsplit is exactly inverted
by urlsplit. -/
structure GoodParts (p : UrlParts) : Prop where
  scheme_good : GoodScheme p.scheme.data
  netloc_chars : ∀ c ∈ p.netloc.data, notDelim c = true
  netloc_ok : CharsOk p.netloc.data
  path_no_hash : '#' ∉ p.path.data
  path_no_query : '?' ∉ p.path.data
  path_ok : CharsOk p.path.data
  query_no_hash : '#' ∉ p.query.data
  query_ok : CharsOk p.query.data
  frag_nil : p.fragment = ""
  rooted : p.netloc.data ≠ [] → p.path.data = [] ∨ p.path.data.head? = some '/'
  no_stolen_netloc : p.netloc.data = [] → p.path.data.take 2 ≠ ['/', '/']
  rooted_uses_netloc : p.netloc.data = [] → p.scheme ∈ uses_netloc →
    p.path.data = [] ∨ p.path.data.head? = some '/'

/-- The component transform normalize_url applies when a scheme is present:
lowercase scheme and netloc, default an empty path to "/", keep the query,
drop the fragment. -/
def normTarget (p : UrlParts) : UrlParts :=
  { scheme := pyLower p.scheme, netloc := pyLower p.netloc,
    path := if p.path = "" then "/" else p.path,
    query := p.query, fragment := "" }

/-- A worker that has not exited. -/
def activeW : WStatus → Bool
  | WStatus.done => false
  | _ => true

/-- How many workers have not exited. -/
def activeCount (ws : List WStatus) : Nat := ws.countP activeW

/-- The number of links the site graph serves for a URL. -/
def linkCount (cfg : CrawlConfig) (u : String) : Nat :=
  match cfg.graph u with
  | some ls => ls.length
  | none => 0

/-- A worker's contribution to the termination measure. -/
def wWeight (cfg : CrawlConfig) : WStatus → Nat
  | WStatus.waitingGet => 1
  | WStatus.fetching u => 2 + linkCount cfg u
  | WStatus.done => 0

/-- Every URL that can ever sit in the frontier: the initial queue plus
every link served by a page of the (finite) graph domain dom. -/
def urlSpace (cfg : CrawlConfig) (dom : List String) : List String :=
  (initState cfg).queue ++ dom.flatMap (fun v =>
    match cfg.graph v with
    | some ls => ls
    | none => [])

/-- A strict upper bound on any one page's link count. -/
def bigC (cfg : CrawlConfig) (dom : List String) : Nat :=
  1 + ((urlSpace cfg dom).map (linkCount cfg)).sum

/-- The termination measure: queue length, plus the not-yet-seen portion of
the URL space weighted by bigC, plus the workers' weights.  Every enabled
step strictly decreases it. -/
def phi (cfg : CrawlConfig) (dom : List String) (s : BfsState) : Nat :=
  s.queue.length +
    bigC cfg dom * ((urlSpace cfg dom).toFinset \ s.seen.toFinset).card +
    (s.workers.map (wWeight cfg)).sum

/-- The resulting bound on the length of any schedule the crawl can
execute. -/
def crawlBound (cfg : CrawlConfig) (dom : List String) : Nat :=
  phi cfg dom (initState cfg)

/-- Every frontier entry lies in the URL space — the invariant that lets
the measure pay for newly seen URLs. -/
def QueueInU (cfg : CrawlConfig) (dom : List String) (s : BfsState) : Prop :=
  ∀ v ∈ s.queue, v ∈ urlSpace cfg dom

/-- The reachable-state invariant of crawl_bfs for a positive page
budget. -/
structure Inv (cfg : CrawlConfig) (s : BfsState) : Prop where
  wlen : s.workers.length = cfg.concurrency
  resScope : ∀ u ∈ s.results, same_site u (build_ctx cfg.rootUrl) = true ∧
    matchesAny cfg.excludePatterns u = false
  fetScope : ∀ (i : Nat) (u : String),
    s.workers[i]? = some (WStatus.fetching u) →
    same_site u (build_ctx cfg.rootUrl) = true ∧
    matchesAny cfg.excludePatterns u = false ∧ u ∈ s.seen
  cap : s.results.length + activeCount s.workers + 1 ≤
    cfg.maxPages + cfg.concurrency
  resNodup : s.results.Nodup
  logNodup : s.fetchLog.Nodup
  logSeen : ∀ u ∈ s.fetchLog, u ∈ s.seen

/-! ## Concrete crawls used in counterexamples and witnesses -/

/-- Two fetchable pages at a.c, a budget of one page, two workers: both
workers pass the loop guard before either fetch lands. -/
def cfgOvershoot : CrawlConfig :=
  { rootUrl := "https://a.c/", maxPages := 1, concurrency := 2,
    includePatterns := [], excludePatterns := [],
    graph := fun u =>
      if u = "https://a.c/" then some []
      else if u = "https://a.c/s" then some [] else none,
    seedUrls := ["https://a.c/s"] }

/-- Both workers claim and start fetching while results is still empty;
then both fetches land. -/
def actsOvershoot : List CrawlAct :=
  [CrawlAct.recv 0, CrawlAct.recv 1, CrawlAct.finish 0, CrawlAct.finish 1]

/-- A crawl whose sitemap discovery lists a /privacy URL while /privacy is
an exclusion pattern; the site itself is unreachable. -/
def cfgPrivacy : CrawlConfig :=
  { rootUrl := "https://a.c/", maxPages := 5, concurrency := 1,
    includePatterns := [], excludePatterns := ["/privacy"],
    graph := fun _ => none,
    seedUrls := ["https://a.c/privacy"] }

/-- The lone worker tries the root, skips the excluded seed, and times
out. -/
def actsPrivacy : List CrawlAct :=
  [CrawlAct.recv 0, CrawlAct.finish 0, CrawlAct.recv 0, CrawlAct.idle 0]

/-- An unreachable root with no seeds: the degenerate crawl. -/
def cfgUnreachable : CrawlConfig :=
  { rootUrl := "https://a.c/", maxPages := 3, concurrency := 1,
    includePatterns := [], excludePatterns := [],
    graph := fun _ => none, seedUrls := [] }

/-- The lone worker tries the root, fails, and times out. -/
def actsUnreachable : List CrawlAct :=
  [CrawlAct.recv 0, CrawlAct.finish 0, CrawlAct.idle 0]

/-- The spec's termination test site: page A links to B and B links back to
A. -/
def cfgCycle : CrawlConfig :=
  { rootUrl := "https://a.c/", maxPages := 10, concurrency := 1,
    includePatterns := [], excludePatterns := [],
    graph := fun u =>
      if u = "https://a.c/" then some ["https://a.c/b"]
      else if u = "https://a.c/b" then some ["https://a.c/"] else none,
    seedUrls := [] }

/-- The finite page domain of cfgCycle's graph. -/
def domCycle : List String := ["https://a.c/", "https://a.c/b"]

/-- Crawl the cycle to exhaustion: A, then B, then the queue stays empty
(B's link back to A is already seen). -/
def actsCycle : List CrawlAct :=
  [CrawlAct.recv 0, CrawlAct.finish 0, CrawlAct.recv 0, CrawlAct.finish 0,
   CrawlAct.idle 0]

/-- One hundred inert filler seeds (relative strings, as a sitemap may
list), so that the next seed falls beyond the seed cap of one hundred. -/
def seedFillers : List String := (List.range 100).map (fun i => toString i)

/-- A crawl with 101 discovered seeds whose one-hundred-and-first seed is
in scope and also linked from the root page: the seed cap keeps it out of
the initial frontier, but the root's link re-discovers it. -/
def cfgSeedCap : CrawlConfig :=
  { rootUrl := "https://a.c/", maxPages := 10, concurrency := 1,
    includePatterns := [], excludePatterns := [],
    graph := fun u =>
      if u = "https://a.c/" then some ["https://a.c/x"]
      else if u = "https://a.c/x" then some [] else none,
    seedUrls := seedFillers ++ ["https://a.c/x"] }

/-- Fetch the root, chew through the hundred inert seeds, then fetch the
beyond-the-cap seed that the root linked to, and time out. -/
def actsSeedCap : List CrawlAct :=
  [CrawlAct.recv 0, CrawlAct.finish 0] ++
    List.replicate 100 (CrawlAct.recv 0) ++
    [CrawlAct.recv 0, CrawlAct.finish 0, CrawlAct.idle 0]

/-! ## Character lemmas -/

theorem char_ne_of_toNat_ne {c d : Char} (h : c.toNat ≠ d.toNat) : c ≠ d :=
  fun e => h (congrArg Char.toNat e)

theorem char_eq_iff_toNat {c d : Char} : c = d ↔ c.toNat = d.toNat :=
  ⟨congrArg Char.toNat, fun h => Char.ext (UInt32.ext h)⟩

theorem toNat_ofNat_of_valid (n : Nat) (h : n.isValidChar) :
    (Char.ofNat n).toNat = n := by
  simp only [Char.ofNat, h, dif_pos, Char.ofNatAux, Char.toNat]
  rfl

theorem toLower_toNat (c : Char) (h : 65 ≤ c.toNat ∧ c.toNat ≤ 90) :
    (Char.toLower c).toNat = c.toNat + 32 := by
  unfold Char.toLower
  rw [if_pos ⟨h.1, h.2⟩]
  apply toNat_ofNat_of_valid
  left
  omega

theorem toLower_eq_self (c : Char) (h : ¬(65 ≤ c.toNat ∧ c.toNat ≤ 90)) :
    Char.toLower c = c := by
  unfold Char.toLower
  rw [if_neg h]

theorem toLower_cases (c : Char) :
    ((Char.toLower c).toNat = c.toNat + 32 ∧ 65 ≤ c.toNat ∧ c.toNat ≤ 90) ∨
      (Char.toLower c = c ∧ ¬(65 ≤ c.toNat ∧ c.toNat ≤ 90)) := by
  by_cases h : 65 ≤ c.toNat ∧ c.toNat ≤ 90
  · exact Or.inl ⟨toLower_toNat c h, h⟩
  · exact Or.inr ⟨toLower_eq_self c h, h⟩

theorem toLower_idem (c : Char) :
    (Char.toLower c).toLower = Char.toLower c := by
  rcases toLower_cases c with ⟨h1, h2⟩ | ⟨h1, _⟩
  · apply toLower_eq_self
    omega
  · rw [h1, h1]

theorem map_toLower_idem (l : List Char) :
    (l.map Char.toLower).map Char.toLower = l.map Char.toLower := by
  rw [List.map_map]
  exact List.map_congr_left fun c _ => toLower_idem c

theorem pyLower_idem (s : String) : pyLower (pyLower s) = pyLower s := by
  unfold pyLower
  exact congrArg String.mk (map_toLower_idem s.data)

theorem pyLower_data (s : String) :
    (pyLower s).data = s.data.map Char.toLower :=
  rfl

theorem isAsciiAlpha_iff (c : Char) : isAsciiAlpha c = true ↔
    (65 ≤ c.toNat ∧ c.toNat ≤ 90) ∨ (97 ≤ c.toNat ∧ c.toNat ≤ 122) := by
  unfold isAsciiAlpha
  simp only [Bool.or_eq_true, Bool.and_eq_true, decide_eq_true_eq]

theorem isAsciiAlpha_toLower {c : Char} (h : isAsciiAlpha c = true) :
    isAsciiAlpha (Char.toLower c) = true := by
  rw [isAsciiAlpha_iff] at h ⊢
  rcases toLower_cases c with ⟨h1, h2⟩ | ⟨h1, _⟩
  · omega
  · rwa [h1]

theorem schemeChar_iff (c : Char) : schemeChar c = true ↔
    (65 ≤ c.toNat ∧ c.toNat ≤ 90) ∨ (97 ≤ c.toNat ∧ c.toNat ≤ 122) ∨
      (48 ≤ c.toNat ∧ c.toNat ≤ 57) ∨ c.toNat = 43 ∨ c.toNat = 45 ∨
      c.toNat = 46 := by
  unfold schemeChar isAsciiAlpha isAsciiDigit
  simp only [Bool.or_eq_true, Bool.and_eq_true, decide_eq_true_eq,
    beq_iff_eq, char_eq_iff_toNat,
    show ('+' : Char).toNat = 43 from rfl,
    show ('-' : Char).toNat = 45 from rfl,
    show ('.' : Char).toNat = 46 from rfl]
  tauto

theorem schemeChar_toLower {c : Char} (h : schemeChar c = true) :
    schemeChar (Char.toLower c) = true := by
  rw [schemeChar_iff] at h ⊢
  rcases toLower_cases c with ⟨h1, h2⟩ | ⟨h1, _⟩
  · omega
  · rwa [h1]

theorem schemeChar_ne_colon {c : Char} (h : schemeChar c = true) : c ≠ ':' := by
  apply char_ne_of_toNat_ne
  rw [show (':' : Char).toNat = 58 from rfl]
  rw [schemeChar_iff] at h
  omega

theorem isTabCrLf_eq_false_iff (c : Char) : isTabCrLf c = false ↔
    c.toNat ≠ 9 ∧ c.toNat ≠ 13 ∧ c.toNat ≠ 10 := by
  unfold isTabCrLf
  simp only [Bool.or_eq_false_iff, beq_eq_false_iff_ne, ne_eq,
    char_eq_iff_toNat,
    show ('\t' : Char).toNat = 9 from rfl,
    show ('\r' : Char).toNat = 13 from rfl,
    show ('\n' : Char).toNat = 10 from rfl]
  tauto

theorem schemeChar_not_tabcrlf {c : Char} (h : schemeChar c = true) :
    isTabCrLf c = false := by
  rw [isTabCrLf_eq_false_iff]
  rw [schemeChar_iff] at h
  omega

theorem isC0OrSpace_eq_false_iff (c : Char) :
    isC0OrSpace c = false ↔ 32 < c.toNat := by
  unfold isC0OrSpace
  simp only [decide_eq_false_iff_not, not_le]

theorem schemeChar_not_c0 {c : Char} (h : schemeChar c = true) :
    isC0OrSpace c = false := by
  rw [isC0OrSpace_eq_false_iff]
  rw [schemeChar_iff] at h
  omega

theorem notDelim_iff (c : Char) : notDelim c = true ↔
    c.toNat ≠ 47 ∧ c.toNat ≠ 63 ∧ c.toNat ≠ 35 := by
  unfold notDelim
  simp only [Bool.not_eq_true', Bool.or_eq_false_iff, beq_eq_false_iff_ne,
    ne_eq, char_eq_iff_toNat,
    show ('/' : Char).toNat = 47 from rfl,
    show ('?' : Char).toNat = 63 from rfl,
    show ('#' : Char).toNat = 35 from rfl]
  tauto

theorem notDelim_toLower {c : Char} (h : notDelim c = true) :
    notDelim (Char.toLower c) = true := by
  rw [notDelim_iff] at h ⊢
  rcases toLower_cases c with ⟨h1, h2⟩ | ⟨h1, _⟩
  · omega
  · rwa [h1]

theorem isTabCrLf_toLower {c : Char} (h : isTabCrLf c = false) :
    isTabCrLf (Char.toLower c) = false := by
  rw [isTabCrLf_eq_false_iff] at h ⊢
  rcases toLower_cases c with ⟨h1, h2⟩ | ⟨h1, _⟩
  · omega
  · rwa [h1]

/-! ## Substring and suffix lemmas -/

theorem startsWithChars_iff (n : List Char) :
    ∀ h : List Char, startsWithChars n h = true ↔ ∃ t, h = n ++ t := by
  induction n with
  | nil =>
    intro h
    simp [startsWithChars]
  | cons c cs ih =>
    intro h
    cases h with
    | nil =>
      simp [startsWithChars]
    | cons d ds =>
      simp only [startsWithChars, Bool.and_eq_true, beq_iff_eq, ih,
        List.cons_append, List.cons.injEq]
      constructor
      · rintro ⟨rfl, t, rfl⟩
        exact ⟨t, rfl, rfl⟩
      · rintro ⟨t, rfl, rfl⟩
        exact ⟨rfl, t, rfl⟩

theorem strEndsWith_iff (s suf : String) :
    strEndsWith s suf = true ↔ ∃ pre, s.data = pre ++ suf.data := by
  unfold strEndsWith
  rw [startsWithChars_iff]
  constructor
  · rintro ⟨t, ht⟩
    refine ⟨t.reverse, ?_⟩
    have := congrArg List.reverse ht
    simpa [List.reverse_append] using this
  · rintro ⟨pre, hp⟩
    refine ⟨pre.reverse, ?_⟩
    rw [hp, List.reverse_append]

/-! ## Splitting lemmas -/

theorem splitAtChar_some (d : Char) :
    ∀ (cs l r : List Char), splitAtChar d cs = some (l, r) →
      cs = l ++ d :: r ∧ d ∉ l := by
  intro cs
  induction cs with
  | nil =>
    intro l r h
    simp [splitAtChar] at h
  | cons c cs ih =>
    intro l r h
    by_cases hc : c = d
    · subst hc
      rw [splitAtChar, if_pos rfl] at h
      simp only [Option.some_inj, Prod.mk.injEq] at h
      obtain ⟨h1, h2⟩ := h
      subst h1
      subst h2
      simp
    · rw [splitAtChar, if_neg hc] at h
      cases hsp : splitAtChar d cs with
      | none =>
        rw [hsp] at h
        simp at h
      | some p =>
        obtain ⟨l1, r1⟩ := p
        rw [hsp] at h
        simp only [Option.some_inj, Prod.mk.injEq] at h
        obtain ⟨h1, h2⟩ := h
        subst h1
        subst h2
        obtain ⟨he, hn⟩ := ih l1 r1 hsp
        subst he
        refine ⟨rfl, fun hmem => ?_⟩
        rcases List.mem_cons.mp hmem with h' | h'
        · exact hc h'.symm
        · exact hn h'

theorem splitAtChar_none (d : Char) :
    ∀ cs, splitAtChar d cs = none → d ∉ cs := by
  intro cs
  induction cs with
  | nil =>
    intro _ h
    exact List.not_mem_nil d h
  | cons c cs ih =>
    intro h hmem
    by_cases hc : c = d
    · subst hc
      rw [splitAtChar, if_pos rfl] at h
      exact absurd h (by simp)
    · rw [splitAtChar, if_neg hc] at h
      cases hsp : splitAtChar d cs with
      | none =>
        rcases List.mem_cons.mp hmem with h' | h'
        · exact hc h'.symm
        · exact ih hsp h'
      | some p =>
        rw [hsp] at h
        exact absurd h (by simp)

theorem splitAtChar_append (d : Char) :
    ∀ (l r : List Char), d ∉ l → splitAtChar d (l ++ d :: r) = some (l, r) := by
  intro l
  induction l with
  | nil =>
    intro r _
    rw [List.nil_append, splitAtChar, if_pos rfl]
  | cons c cs ih =>
    intro r hd
    have hc : ¬(c = d) := fun h => hd (h ▸ List.mem_cons_self c cs)
    rw [List.cons_append, splitAtChar, if_neg hc,
      ih r (fun h => hd (List.mem_cons_of_mem c h))]

theorem splitAtChar_not_mem (d : Char) :
    ∀ cs, d ∉ cs → splitAtChar d cs = none := by
  intro cs
  induction cs with
  | nil =>
    intro _
    rfl
  | cons c cs ih =>
    intro hd
    have hc : ¬(c = d) := fun h => hd (h ▸ List.mem_cons_self c cs)
    rw [splitAtChar, if_neg hc, ih (fun h => hd (List.mem_cons_of_mem c h))]

theorem splitOpt_append (d : Char) (l r : List Char) (hl : d ∉ l) :
    splitOpt d (l ++ d :: r) = (l, r) := by
  unfold splitOpt
  rw [splitAtChar_append d l r hl]

theorem splitOpt_not_mem (d : Char) (cs : List Char) (h : d ∉ cs) :
    splitOpt d cs = (cs, []) := by
  unfold splitOpt
  rw [splitAtChar_not_mem d cs h]

theorem splitOpt_spec (d : Char) (cs : List Char) :
    (cs = (splitOpt d cs).1 ++ d :: (splitOpt d cs).2 ∧
      d ∉ (splitOpt d cs).1) ∨
    ((splitOpt d cs).1 = cs ∧ (splitOpt d cs).2 = [] ∧ d ∉ cs) := by
  unfold splitOpt
  cases hsp : splitAtChar d cs with
  | none => exact Or.inr ⟨rfl, rfl, splitAtChar_none d cs hsp⟩
  | some p => exact Or.inl (splitAtChar_some d cs p.1 p.2 (by rw [hsp]))

theorem splitOpt_head (d c : Char) (t : List Char) (hc : ¬(c = d)) :
    ∃ t2, (splitOpt d (c :: t)).1 = c :: t2 := by
  unfold splitOpt
  rw [splitAtChar, if_neg hc]
  cases hsp : splitAtChar d t with
  | none => exact ⟨t, rfl⟩
  | some p => exact ⟨p.1, rfl⟩

theorem splitOpt_nil (d : Char) : splitOpt d [] = ([], []) := rfl

theorem takeWhile_append_stop (p : Char → Bool) :
    ∀ (l : List Char) (d : Char) (r : List Char),
      (∀ c ∈ l, p c = true) → p d = false →
      (l ++ d :: r).takeWhile p = l ∧ (l ++ d :: r).dropWhile p = d :: r := by
  intro l
  induction l with
  | nil =>
    intro d r _ hd
    constructor
    · rw [List.nil_append, List.takeWhile_cons, hd]
      simp
    · rw [List.nil_append, List.dropWhile_cons, hd]
      simp
  | cons c cs ih =>
    intro d r hl hd
    have hc : p c = true := hl c (List.mem_cons_self c cs)
    have hrec := ih d r (fun x hx => hl x (List.mem_cons_of_mem c hx)) hd
    constructor
    · rw [List.cons_append, List.takeWhile_cons, hc]
      simp [hrec.1]
    · rw [List.cons_append, List.dropWhile_cons, hc]
      simp [hrec.2]

theorem takeWhile_all_true (p : Char → Bool) :
    ∀ l : List Char, (∀ c ∈ l, p c = true) →
      l.takeWhile p = l ∧ l.dropWhile p = [] := by
  intro l
  induction l with
  | nil =>
    intro _
    exact ⟨rfl, rfl⟩
  | cons c cs ih =>
    intro hl
    have hc : p c = true := hl c (List.mem_cons_self c cs)
    have hrec := ih (fun x hx => hl x (List.mem_cons_of_mem c hx))
    constructor
    · rw [List.takeWhile_cons, hc]
      simp [hrec.1]
    · rw [List.dropWhile_cons, hc]
      simp [hrec.2]

theorem dropWhile_head_not (p : Char → Bool) :
    ∀ l : List Char, l.dropWhile p = [] ∨
      ∃ c t, l.dropWhile p = c :: t ∧ p c = false := by
  intro l
  induction l with
  | nil => exact Or.inl rfl
  | cons c cs ih =>
    rw [List.dropWhile_cons]
    by_cases hc : p c = true
    · rw [hc]
      simpa using ih
    · rw [Bool.not_eq_true] at hc
      rw [hc]
      exact Or.inr ⟨c, cs, by simp, hc⟩

/-! ## Preprocessing lemmas -/

theorem preprocess_tabcrlf (cs : List Char) :
    ∀ c ∈ preprocess cs, isTabCrLf c = false := by
  intro c hc
  unfold preprocess at hc
  have := (List.mem_filter.mp hc).2
  rwa [Bool.not_eq_true'] at this

theorem preprocess_eq_self (c : Char) (t : List Char)
    (hc : isC0OrSpace c = false) (h2 : ∀ x ∈ c :: t, isTabCrLf x = false) :
    preprocess (c :: t) = c :: t := by
  unfold preprocess
  rw [List.dropWhile_cons, hc]
  simp only [Bool.false_eq_true, if_false]
  rw [List.filter_eq_self.mpr]
  intro a ha
  rw [Bool.not_eq_true']
  exact h2 a ha

/-! ## Exact recovery lemmas: urlsplit after urlunsplit -/

theorem charsOk_append {a b : List Char} (ha : CharsOk a) (hb : CharsOk b) :
    CharsOk (a ++ b) := by
  intro c hc
  rcases List.mem_append.mp hc with h | h
  · exact ha c h
  · exact hb c h

theorem charsOk_cons {c : Char} {l : List Char} (hc : isTabCrLf c = false)
    (hl : CharsOk l) : CharsOk (c :: l) := by
  intro x hx
  rcases List.mem_cons.mp hx with h | h
  · exact h ▸ hc
  · exact hl x h

theorem charsOk_of_mem {a b : List Char} (hb : CharsOk b)
    (hsub : ∀ c ∈ a, c ∈ b) : CharsOk a :=
  fun c hc => hb c (hsub c hc)

theorem splitOpt_cons_self (d : Char) (t : List Char) :
    splitOpt d (d :: t) = ([], t) := by
  unfold splitOpt
  rw [splitAtChar, if_pos rfl]

theorem take2_shape (rest : List Char) (h : rest.take 2 = ['/', '/']) :
    ∃ t, rest = '/' :: '/' :: t := by
  rcases rest with _ | ⟨a, _ | ⟨b, t⟩⟩
  · simp [List.take] at h
  · simp [List.take] at h
  · simp only [List.take, List.cons.injEq, and_true] at h
    obtain ⟨rfl, rfl, -⟩ := h
    exact ⟨t, rfl⟩

theorem splitNetloc_eq (rest : List Char) :
    (∃ tail, rest = '/' :: '/' :: tail ∧
      splitNetloc rest = (tail.takeWhile notDelim, tail.dropWhile notDelim)) ∨
    (rest.take 2 ≠ ['/', '/'] ∧ splitNetloc rest = ([], rest)) := by
  unfold splitNetloc
  split
  next tail => exact Or.inl ⟨tail, rfl, rfl⟩
  next h =>
    refine Or.inr ⟨fun hc => ?_, rfl⟩
    obtain ⟨t, ht⟩ := take2_shape rest hc
    exact h t ht

theorem root_id (pa : List Char) (h : pa = [] ∨ pa.head? = some '/') :
    (if pa ≠ [] ∧ pa.take 1 ≠ ['/'] then '/' :: pa else pa) = pa := by
  rcases h with rfl | hh
  · simp
  · rcases pa with _ | ⟨c, t⟩
    · simp
    · simp only [List.head?] at hh
      obtain rfl := Option.some_inj.mp hh
      simp [List.take]

theorem rest2_head (pa q : List Char) (hpa : pa = [] ∨ pa.head? = some '/') :
    pa ++ qpart q = [] ∨
      ∃ c t, pa ++ qpart q = c :: t ∧ notDelim c = false := by
  rcases hpa with rfl | hh
  · by_cases hq : q = []
    · subst hq
      exact Or.inl rfl
    · refine Or.inr ⟨'?', q, ?_, by decide⟩
      simp [qpart, hq]
  · rcases pa with _ | ⟨c, t⟩
    · simp at hh
    · simp only [List.head?] at hh
      obtain rfl := Option.some_inj.mp hh
      exact Or.inr ⟨'/', t ++ qpart q, rfl, by decide⟩

theorem netloc_split_exact (nl rest2 : List Char)
    (hnl : ∀ c ∈ nl, notDelim c = true)
    (h2 : rest2 = [] ∨ ∃ c t, rest2 = c :: t ∧ notDelim c = false) :
    (nl ++ rest2).takeWhile notDelim = nl ∧
      (nl ++ rest2).dropWhile notDelim = rest2 := by
  rcases h2 with rfl | ⟨c, t, rfl, hc⟩
  · rw [List.append_nil]
    exact takeWhile_all_true notDelim nl hnl
  · exact takeWhile_append_stop notDelim nl c t hnl hc

theorem fragQuery_exact (pa q : List Char) (hpa1 : '#' ∉ pa)
    (hpa2 : '?' ∉ pa) (hq : '#' ∉ q) :
    splitOpt '#' (pa ++ qpart q) = (pa ++ qpart q, []) ∧
      splitOpt '?' (pa ++ qpart q) = (pa, q) := by
  by_cases hq0 : q = []
  · subst hq0
    simp only [qpart, ne_eq, not_true_eq_false, if_false, List.append_nil]
    exact ⟨splitOpt_not_mem '#' pa hpa1, splitOpt_not_mem '?' pa hpa2⟩
  · have hqp : qpart q = '?' :: q := by simp [qpart, hq0]
    rw [hqp]
    constructor
    · apply splitOpt_not_mem
      intro hm
      rcases List.mem_append.mp hm with h | h
      · exact hpa1 h
      · rcases List.mem_cons.mp h with h' | h'
        · exact absurd h' (by decide)
        · exact hq h'
    · exact splitOpt_append '?' pa q hpa2

theorem bodyC_take2 (pa q : List Char) (hne : pa.take 2 ≠ ['/', '/']) :
    (pa ++ qpart q).take 2 ≠ ['/', '/'] := by
  intro hc
  obtain ⟨t, ht⟩ := take2_shape _ hc
  rcases pa with _ | ⟨c1, _ | ⟨c2, t2⟩⟩
  · rw [List.nil_append] at ht
    by_cases hq : q = []
    · simp [qpart, hq] at ht
    · rw [show qpart q = '?' :: q by simp [qpart, hq]] at ht
      exact absurd (List.head_eq_of_cons_eq ht) (by decide)
  · rw [List.cons_append] at ht
    have h1 := List.head_eq_of_cons_eq ht
    have h2 := List.tail_eq_of_cons_eq ht
    by_cases hq : q = []
    · simp [qpart, hq] at h2
    · rw [show qpart q = '?' :: q by simp [qpart, hq]] at h2
      rw [List.nil_append] at h2
      exact absurd (List.head_eq_of_cons_eq h2) (by decide)
  · rw [List.cons_append, List.cons_append] at ht
    have h1 := List.head_eq_of_cons_eq ht
    have h2 := List.head_eq_of_cons_eq (List.tail_eq_of_cons_eq ht)
    apply hne
    rw [h1, h2]
    rfl

theorem splitScheme_exact (sc body : List Char) (hg : GoodScheme sc) :
    splitScheme (sc ++ ':' :: body) = some (sc, body) := by
  cases sc with
  | nil => exact absurd hg (by simp [GoodScheme])
  | cons c0 sc' =>
    obtain ⟨ha, hall, hlow⟩ := hg
    have hnc : ':' ∉ c0 :: sc' :=
      fun hm => schemeChar_ne_colon (hall _ hm) rfl
    unfold splitScheme
    rw [splitAtChar_append ':' (c0 :: sc') body hnc]
    have hcond : (isAsciiAlpha c0 && sc'.all schemeChar) = true := by
      rw [Bool.and_eq_true]
      exact ⟨ha, List.all_eq_true.mpr
        (fun x hx => hall x (List.mem_cons_of_mem _ hx))⟩
    show (if (isAsciiAlpha c0 && sc'.all schemeChar) = true
        then some ((c0 :: sc').map Char.toLower, body) else none) =
      some (c0 :: sc', body)
    rw [if_pos hcond, Option.some_inj]
    exact congrArg (fun l => (l, body)) hlow

theorem urlsplit_build (sc body : List Char) (hg : GoodScheme sc)
    (hokb : CharsOk body) :
    urlsplit ⟨sc ++ ':' :: body⟩ = restParts ⟨sc⟩ body := by
  cases sc with
  | nil => exact absurd hg (by simp [GoodScheme])
  | cons c0 sc' =>
    obtain ⟨ha, hall, hlow⟩ := hg
    have hok : CharsOk ((c0 :: sc') ++ ':' :: body) := by
      apply charsOk_append
      · exact fun c hc => schemeChar_not_tabcrlf (hall c hc)
      · exact charsOk_cons (by decide) hokb
    have hpre : preprocess ((c0 :: sc') ++ ':' :: body) =
        (c0 :: sc') ++ ':' :: body := by
      rw [List.cons_append]
      apply preprocess_eq_self
      · exact schemeChar_not_c0 (hall c0 (List.mem_cons_self c0 sc'))
      · rw [← List.cons_append]
        exact hok
    unfold urlsplit
    simp only [hpre, splitScheme_exact (c0 :: sc') body ⟨ha, hall, hlow⟩]
    rfl

theorem restParts_netloc (scheme : String) (nl pa q : List Char)
    (hnl : ∀ c ∈ nl, notDelim c = true)
    (hpa0 : pa = [] ∨ pa.head? = some '/')
    (hpa1 : '#' ∉ pa) (hpa2 : '?' ∉ pa) (hq : '#' ∉ q) :
    restParts scheme ('/' :: '/' :: (nl ++ (pa ++ qpart q))) =
      ⟨scheme, ⟨nl⟩, ⟨pa⟩, ⟨q⟩, ""⟩ := by
  obtain ⟨ht, hd⟩ := netloc_split_exact nl (pa ++ qpart q) hnl
    (rest2_head pa q hpa0)
  obtain ⟨hfr, hpq⟩ := fragQuery_exact pa q hpa1 hpa2 hq
  unfold restParts splitNetloc
  simp only [ht, hd, hfr, hpq]

theorem restParts_plain (scheme : String) (pa q : List Char)
    (hne : pa.take 2 ≠ ['/', '/'])
    (hpa1 : '#' ∉ pa) (hpa2 : '?' ∉ pa) (hq : '#' ∉ q) :
    restParts scheme (pa ++ qpart q) = ⟨scheme, "", ⟨pa⟩, ⟨q⟩, ""⟩ := by
  obtain ⟨hfr, hpq⟩ := fragQuery_exact pa q hpa1 hpa2 hq
  rcases splitNetloc_eq (pa ++ qpart q) with ⟨tail, htl, _⟩ | ⟨_, hnl⟩
  · refine absurd (show (pa ++ qpart q).take 2 = ['/', '/'] by
      rw [htl]
      rfl) (bodyC_take2 pa q hne)
  · unfold restParts
    simp only [hnl, hfr, hpq]

theorem qpart_ok {q : List Char} (h : CharsOk q) : CharsOk (qpart q) := by
  unfold qpart
  by_cases hq : q = []
  · simp [hq]
    intro c hc
    exact absurd hc (List.not_mem_nil c)
  · simp only [hq, ne_eq, not_false_eq_true, if_true]
    exact charsOk_cons (by decide) h

theorem append_qpart (X q : List Char) :
    (if q ≠ [] then X ++ '?' :: q else X) = X ++ qpart q := by
  unfold qpart
  by_cases hq : q = []
  · simp [hq]
  · simp [hq]

/-- urlunsplit on explicit components, with the netloc-emission and
path-rooting decisions left in place. -/
theorem urlunsplit_mk (sc nl pa q : List Char) (hsc : sc ≠ []) :
    urlunsplit ⟨⟨sc⟩, ⟨nl⟩, ⟨pa⟩, ⟨q⟩, ⟨[]⟩⟩ =
      ⟨sc ++ ':' :: ((if nl ≠ [] ∨ (sc ≠ [] ∧ (⟨sc⟩ : String) ∈ uses_netloc ∧
          pa.take 2 ≠ ['/', '/'])
        then '/' :: '/' :: (nl ++ (if pa ≠ [] ∧ pa.take 1 ≠ ['/']
          then '/' :: pa else pa))
        else pa) ++ qpart q)⟩ := by
  simp only [urlunsplit]
  rw [if_pos hsc, append_qpart,
    if_neg (show ¬(([] : List Char) ≠ []) from fun h => h rfl)]
  exact congrArg String.mk (by simp [List.append_assoc])

/-- urlsplit exactly inverts urlunsplit on well-formed component
records. -/
theorem urlunsplit_roundtrip (p : UrlParts) (hp : GoodParts p) :
    urlsplit (urlunsplit p) = p := by
  obtain ⟨⟨sc⟩, ⟨nl⟩, ⟨pa⟩, ⟨q⟩, ⟨fg⟩⟩ := p
  obtain ⟨hg, hnlc, hnlok, hpa1, hpa2, hpaok, hq1, hqok, hfrag, hroot,
    hstolen, hrootu⟩ := hp
  dsimp only at hg hnlc hnlok hpa1 hpa2 hpaok hq1 hqok hfrag hroot hstolen hrootu
  have hfg : fg = [] := congrArg String.data hfrag
  subst hfg
  have hsc : sc ≠ [] := by
    cases sc with
    | nil => exact absurd hg (by simp [GoodScheme])
    | cons a b => simp
  rw [urlunsplit_mk sc nl pa q hsc]
  by_cases hnl0 : nl = []
  · subst hnl0
    by_cases hunl : (⟨sc⟩ : String) ∈ uses_netloc
    · -- empty netloc, scheme uses a netloc: "//" is re-emitted
      have hne : pa.take 2 ≠ ['/', '/'] := hstolen rfl
      have hrooted : pa = [] ∨ pa.head? = some '/' := hrootu rfl hunl
      rw [if_pos (Or.inr ⟨hsc, hunl, hne⟩), root_id pa hrooted]
      simp only [List.cons_append, List.append_assoc]
      rw [urlsplit_build sc ('/' :: '/' :: (([] : List Char) ++
          (pa ++ qpart q))) hg (charsOk_cons (by decide)
          (charsOk_cons (by decide) (charsOk_append (fun c hc =>
            absurd hc (List.not_mem_nil c))
            (charsOk_append hpaok (qpart_ok hqok))))),
        restParts_netloc ⟨sc⟩ [] pa q
          (fun c hc => absurd hc (List.not_mem_nil c)) hrooted hpa1 hpa2 hq1]
    · -- empty netloc, plain scheme: the path stands alone
      have hne : pa.take 2 ≠ ['/', '/'] := hstolen rfl
      rw [if_neg (by
          intro hc
          rcases hc with hc | ⟨-, hc, -⟩
          · exact hc rfl
          · exact hunl hc),
        urlsplit_build sc _ hg (charsOk_append hpaok (qpart_ok hqok)),
        restParts_plain ⟨sc⟩ pa q hne hpa1 hpa2 hq1]
  · -- netloc present
    have hrooted : pa = [] ∨ pa.head? = some '/' := hroot hnl0
    rw [if_pos (Or.inl hnl0), root_id pa hrooted]
    simp only [List.cons_append, List.append_assoc]
    rw [urlsplit_build sc ('/' :: '/' :: (nl ++ (pa ++ qpart q))) hg
        (charsOk_cons (by decide) (charsOk_cons (by decide)
          (charsOk_append hnlok (charsOk_append hpaok (qpart_ok hqok))))),
      restParts_netloc ⟨sc⟩ nl pa q hnlc hrooted hpa1 hpa2 hq1]

/-! ## Invariants of urlsplit output -/

theorem splitOpt_parts_sub (d : Char) (cs : List Char) :
    (∀ c ∈ (splitOpt d cs).1, c ∈ cs) ∧ (∀ c ∈ (splitOpt d cs).2, c ∈ cs) ∧
      d ∉ (splitOpt d cs).1 := by
  rcases splitOpt_spec d cs with ⟨heq, hnm⟩ | ⟨h1, h2, hnm⟩
  · refine ⟨?_, ?_, hnm⟩
    · intro c hc
      rw [heq]
      exact List.mem_append.mpr (Or.inl hc)
    · intro c hc
      rw [heq]
      exact List.mem_append.mpr (Or.inr (List.mem_cons_of_mem d hc))
  · rw [h1, h2]
    exact ⟨fun c hc => hc, fun c hc => absurd hc (List.not_mem_nil c), hnm⟩

theorem fragQuery_parts (rest2 : List Char) (hok : CharsOk rest2) :
    '#' ∉ (splitOpt '?' (splitOpt '#' rest2).1).1 ∧
    '?' ∉ (splitOpt '?' (splitOpt '#' rest2).1).1 ∧
    CharsOk (splitOpt '?' (splitOpt '#' rest2).1).1 ∧
    '#' ∉ (splitOpt '?' (splitOpt '#' rest2).1).2 ∧
    CharsOk (splitOpt '?' (splitOpt '#' rest2).1).2 ∧
    CharsOk (splitOpt '#' rest2).2 := by
  obtain ⟨hf1, hf2, hfnm⟩ := splitOpt_parts_sub '#' rest2
  obtain ⟨hq1, hq2, hqnm⟩ := splitOpt_parts_sub '?' (splitOpt '#' rest2).1
  exact ⟨fun hm => hfnm (hq1 '#' hm), hqnm,
    charsOk_of_mem hok (fun c hc => hf1 c (hq1 c hc)),
    fun hm => hfnm (hq2 '#' hm),
    charsOk_of_mem hok (fun c hc => hf1 c (hq2 c hc)),
    charsOk_of_mem hok hf2⟩

theorem notDelim_false_cases {c : Char} (h : notDelim c = false) :
    c = '/' ∨ c = '?' ∨ c = '#' := by
  have h2 : ¬(c.toNat ≠ 47 ∧ c.toNat ≠ 63 ∧ c.toNat ≠ 35) := by
    intro hc
    rw [← notDelim_iff] at hc
    rw [h] at hc
    exact Bool.false_ne_true hc
  push_neg at h2
  by_cases h47 : c.toNat = 47
  · exact Or.inl (char_eq_iff_toNat.mpr h47)
  · by_cases h63 : c.toNat = 63
    · exact Or.inr (Or.inl (char_eq_iff_toNat.mpr h63))
    · exact Or.inr (Or.inr (char_eq_iff_toNat.mpr (h2 h47 h63)))

theorem path_head_of_rest2 (rest2 : List Char)
    (h : rest2 = [] ∨ ∃ c t, rest2 = c :: t ∧ notDelim c = false) :
    (splitOpt '?' (splitOpt '#' rest2).1).1 = [] ∨
      (splitOpt '?' (splitOpt '#' rest2).1).1.head? = some '/' := by
  rcases h with rfl | ⟨c, t, rfl, hc⟩
  · rw [splitOpt_nil, splitOpt_nil]
    exact Or.inl rfl
  · rcases notDelim_false_cases hc with rfl | rfl | rfl
    · obtain ⟨t2, ht2⟩ := splitOpt_head '#' '/' t (by decide)
      rw [ht2]
      obtain ⟨t3, ht3⟩ := splitOpt_head '?' '/' t2 (by decide)
      rw [ht3]
      exact Or.inr rfl
    · obtain ⟨t2, ht2⟩ := splitOpt_head '#' '?' t (by decide)
      rw [ht2, splitOpt_cons_self]
      exact Or.inl rfl
    · rw [splitOpt_cons_self, splitOpt_nil]
      exact Or.inl rfl

theorem schemeChar_of_alpha {c : Char} (h : isAsciiAlpha c = true) :
    schemeChar c = true := by
  unfold schemeChar
  rw [h]
  rfl

theorem splitScheme_good (cs sc rest : List Char)
    (h : splitScheme cs = some (sc, rest)) : GoodScheme sc := by
  unfold splitScheme at h
  cases hsp : splitAtChar ':' cs with
  | none =>
    rw [hsp] at h
    exact absurd h (by simp)
  | some p =>
    obtain ⟨before, after⟩ := p
    rw [hsp] at h
    cases before with
    | nil => exact absurd h (by simp)
    | cons c0 r0 =>
      have h' : (if (isAsciiAlpha c0 && r0.all schemeChar) = true
          then some ((c0 :: r0).map Char.toLower, after) else none) =
          some (sc, rest) := h
      by_cases hcond : (isAsciiAlpha c0 && r0.all schemeChar) = true
      · rw [if_pos hcond, Option.some_inj] at h'
        have hsc : sc = (c0 :: r0).map Char.toLower :=
          (congrArg Prod.fst h').symm
        subst hsc
        obtain ⟨ha, hb⟩ := Bool.and_eq_true _ _ |>.mp hcond
        show GoodScheme (Char.toLower c0 :: r0.map Char.toLower)
        refine ⟨isAsciiAlpha_toLower ha, ?_, ?_⟩
        · intro x hx
          rcases List.mem_cons.mp hx with rfl | hx'
          · exact schemeChar_toLower (schemeChar_of_alpha ha)
          · obtain ⟨y, hy, rfl⟩ := List.mem_map.mp hx'
            exact schemeChar_toLower (List.all_eq_true.mp hb y hy)
        · exact map_toLower_idem (c0 :: r0)
      · rw [if_neg hcond] at h'
        exact absurd h' (by simp)

theorem urlsplit_cases (u : String) :
    (∃ sc rest, splitScheme (preprocess u.data) = some (sc, rest) ∧
      urlsplit u = restParts ⟨sc⟩ rest) ∨
    (splitScheme (preprocess u.data) = none ∧
      urlsplit u = restParts "" (preprocess u.data)) := by
  cases h : splitScheme (preprocess u.data) with
  | none =>
    refine Or.inr ⟨rfl, ?_⟩
    simp only [urlsplit, restParts, h]
  | some p =>
    obtain ⟨s1, r1⟩ := p
    refine Or.inl ⟨s1, r1, rfl, ?_⟩
    simp only [urlsplit, restParts, h]

theorem restParts_ok (scheme : String) (rest : List Char)
    (hok : CharsOk rest) :
    (∀ c ∈ (restParts scheme rest).netloc.data, notDelim c = true) ∧
    CharsOk (restParts scheme rest).netloc.data ∧
    '#' ∉ (restParts scheme rest).path.data ∧
    '?' ∉ (restParts scheme rest).path.data ∧
    CharsOk (restParts scheme rest).path.data ∧
    '#' ∉ (restParts scheme rest).query.data ∧
    CharsOk (restParts scheme rest).query.data ∧
    ((restParts scheme rest).netloc.data ≠ [] →
      (restParts scheme rest).path.data = [] ∨
        (restParts scheme rest).path.data.head? = some '/') := by
  rcases splitNetloc_eq rest with ⟨tail, hrest, hnl⟩ | ⟨hne, hnl⟩
  · subst hrest
    have hoktail : CharsOk tail := fun c hc => hok c
      (List.mem_cons_of_mem _ (List.mem_cons_of_mem _ hc))
    have hsub : ∀ c ∈ tail.takeWhile notDelim, c ∈ tail := by
      intro c hc
      have := List.takeWhile_append_dropWhile (p := notDelim) (l := tail)
      rw [← this]
      exact List.mem_append.mpr (Or.inl hc)
    have hokrest2 : CharsOk (tail.dropWhile notDelim) := by
      apply charsOk_of_mem hoktail
      intro c hc
      have := List.takeWhile_append_dropWhile (p := notDelim) (l := tail)
      rw [← this]
      exact List.mem_append.mpr (Or.inr hc)
    obtain ⟨hp1, hp2, hp3, hq1, hq2, _⟩ := fragQuery_parts _ hokrest2
    have hhead := path_head_of_rest2 (tail.dropWhile notDelim) (by
      rcases dropWhile_head_not notDelim tail with h | ⟨c, t, hct, hcf⟩
      · exact Or.inl h
      · exact Or.inr ⟨c, t, hct, hcf⟩)
    unfold restParts
    rw [hnl]
    refine ⟨fun c hc => List.mem_takeWhile_imp hc,
      charsOk_of_mem hoktail hsub, hp1, hp2, hp3, hq1, hq2, fun _ => hhead⟩
  · unfold restParts
    rw [hnl]
    obtain ⟨hp1, hp2, hp3, hq1, hq2, _⟩ := fragQuery_parts rest hok
    exact ⟨fun c hc => absurd hc (List.not_mem_nil c),
      fun c hc => absurd hc (List.not_mem_nil c), hp1, hp2, hp3, hq1, hq2,
      fun hne2 => absurd rfl hne2⟩

/-- All structural invariants of a parse result, packaged: either there is
no scheme, or the scheme is well-formed; and the netloc, path and query
obey the delimiter and character disciplines. -/
theorem urlsplit_invariants (u : String) :
    ((urlsplit u).scheme = "" ∨ GoodScheme (urlsplit u).scheme.data) ∧
    (∀ c ∈ (urlsplit u).netloc.data, notDelim c = true) ∧
    CharsOk (urlsplit u).netloc.data ∧
    '#' ∉ (urlsplit u).path.data ∧
    '?' ∉ (urlsplit u).path.data ∧
    CharsOk (urlsplit u).path.data ∧
    '#' ∉ (urlsplit u).query.data ∧
    CharsOk (urlsplit u).query.data ∧
    ((urlsplit u).netloc.data ≠ [] → (urlsplit u).path.data = [] ∨
      (urlsplit u).path.data.head? = some '/') := by
  rcases urlsplit_cases u with ⟨sc, rest, hsp, heq⟩ | ⟨hsp, heq⟩
  · have hokr : CharsOk rest := by
      obtain ⟨sc0, hcs, -⟩ : ∃ sc0, preprocess u.data = sc0 ++ ':' :: rest ∧
          True := by
        unfold splitScheme at hsp
        cases hsp2 : splitAtChar ':' (preprocess u.data) with
        | none =>
          rw [hsp2] at hsp
          exact absurd hsp (by simp)
        | some p =>
          obtain ⟨before, after⟩ := p
          rw [hsp2] at hsp
          obtain ⟨heq2, -⟩ :=
            splitAtChar_some ':' (preprocess u.data) before after hsp2
          cases before with
          | nil => exact absurd hsp (by simp)
          | cons c0 r0 =>
            by_cases hcond : (isAsciiAlpha c0 && r0.all schemeChar) = true
            · have h' : (if (isAsciiAlpha c0 && r0.all schemeChar) = true
                  then some ((c0 :: r0).map Char.toLower, after) else none) =
                  some (sc, rest) := hsp
              rw [if_pos hcond, Option.some_inj] at h'
              have hr : rest = after := (congrArg Prod.snd h').symm
              subst hr
              exact ⟨c0 :: r0, heq2, trivial⟩
            · have h' : (if (isAsciiAlpha c0 && r0.all schemeChar) = true
                  then some ((c0 :: r0).map Char.toLower, after) else none) =
                  some (sc, rest) := hsp
              rw [if_neg hcond] at h'
              exact absurd h' (by simp)
      intro c hc
      apply preprocess_tabcrlf u.data
      rw [hcs]
      exact List.mem_append.mpr (Or.inr (List.mem_cons_of_mem ':' hc))
    rw [heq]
    obtain ⟨h1, h2, h3, h4, h5, h6, h7, h8⟩ := restParts_ok ⟨sc⟩ rest hokr
    exact ⟨Or.inr (splitScheme_good _ sc rest hsp), h1, h2, h3, h4, h5, h6,
      h7, h8⟩
  · rw [heq]
    obtain ⟨h1, h2, h3, h4, h5, h6, h7, h8⟩ :=
      restParts_ok "" (preprocess u.data) (preprocess_tabcrlf u.data)
    exact ⟨Or.inl rfl, h1, h2, h3, h4, h5, h6, h7, h8⟩

/-! ## normalize_url characterization -/

theorem pyLower_ne_empty {s : String} (h : s ≠ "") : pyLower s ≠ "" := by
  obtain ⟨d⟩ := s
  cases d with
  | nil => exact absurd rfl h
  | cons c t =>
    intro hc
    exact absurd (congrArg String.data hc) (by simp [pyLower])

theorem good_scheme_pyLower_fix {s : String} (hg : GoodScheme s.data) :
    pyLower s = s := by
  obtain ⟨d⟩ := s
  cases d with
  | nil => exact absurd hg (by simp [GoodScheme])
  | cons c t =>
    obtain ⟨-, -, hlow⟩ := hg
    exact congrArg String.mk hlow

theorem string_mk_ne_empty {l : List Char} (h : l ≠ []) :
    (⟨l⟩ : String) ≠ "" :=
  fun hc => h (congrArg String.data hc)

theorem normTarget_good_of (p : UrlParts)
    (hg : GoodScheme p.scheme.data)
    (hnlc : ∀ c ∈ p.netloc.data, notDelim c = true)
    (hnlok : CharsOk p.netloc.data)
    (hpa1 : '#' ∉ p.path.data) (hpa2 : '?' ∉ p.path.data)
    (hpaok : CharsOk p.path.data)
    (hq1 : '#' ∉ p.query.data) (hqok : CharsOk p.query.data)
    (hrooted : p.netloc.data ≠ [] →
      p.path.data = [] ∨ p.path.data.head? = some '/')
    (hH : NormSafe p) :
    GoodParts (normTarget p) := by
  obtain ⟨⟨sc⟩, ⟨nl⟩, ⟨pa⟩, ⟨q⟩, ⟨fg⟩⟩ := p
  dsimp only at hg hnlc hnlok hpa1 hpa2 hpaok hq1 hqok hrooted
  unfold NormSafe at hH
  dsimp only at hH
  have hfix : pyLower ⟨sc⟩ = ⟨sc⟩ := good_scheme_pyLower_fix hg
  have hnl_map : (pyLower ⟨nl⟩).data = nl.map Char.toLower := rfl
  have hnl_iff : ∀ hx : (pyLower ⟨nl⟩).data = [], nl = [] := by
    intro hx
    rw [hnl_map] at hx
    cases nl with
    | nil => rfl
    | cons a b => exact absurd hx (by simp)
  have hsafe : nl = [] → pa.take 2 ≠ ['/', '/'] ∧
      ((⟨sc⟩ : String) ∈ uses_netloc → pa = [] ∨ pa.head? = some '/') := by
    intro hnl0
    rcases hH with hH | hH
    · exact absurd (congrArg String.mk hnl0) hH
    · exact ⟨hH.1, fun hm => (hH.2 hm).imp (congrArg String.data) id⟩
  have hmem_unl : (pyLower ⟨sc⟩ : String) ∈ uses_netloc ↔
      (⟨sc⟩ : String) ∈ uses_netloc := by
    rw [hfix]
  have hpath_facts : ∃ pa2 : List Char,
      (if (⟨pa⟩ : String) = "" then "/" else (⟨pa⟩ : String)) = ⟨pa2⟩ ∧
      '#' ∉ pa2 ∧ '?' ∉ pa2 ∧ CharsOk pa2 ∧
      (pa ≠ [] → pa2 = pa) ∧ (pa = [] → pa2 = ['/']) := by
    by_cases hpe : pa = []
    · subst hpe
      refine ⟨['/'], if_pos rfl, by decide, by decide, ?_,
        fun h => absurd rfl h, fun _ => rfl⟩
      intro c hc
      rw [List.mem_singleton] at hc
      subst hc
      decide
    · exact ⟨pa, if_neg (string_mk_ne_empty hpe), hpa1, hpa2, hpaok,
        fun _ => rfl, fun h => absurd h hpe⟩
  obtain ⟨pa2, hpath, hb1, hb2, hb3, hb4, hb5⟩ := hpath_facts
  refine ⟨?_, ?_, ?_, ?_, ?_, ?_, ?_, ?_, ?_, ?_, ?_, ?_⟩ <;>
    simp only [normTarget, hpath, hfix]
  · exact hg
  · intro c hc
    obtain ⟨y, hy, rfl⟩ := List.mem_map.mp hc
    exact notDelim_toLower (hnlc y hy)
  · intro c hc
    obtain ⟨y, hy, rfl⟩ := List.mem_map.mp hc
    exact isTabCrLf_toLower (hnlok y hy)
  · exact hb1
  · exact hb2
  · exact hb3
  · exact hq1
  · exact hqok
  · intro hne
    have hnl0 : nl ≠ [] := fun hx => by
      rw [hnl_map, hx] at hne
      exact hne rfl
    rcases hrooted hnl0 with hx | hx
    · exact Or.inr (by rw [hb5 hx]; rfl)
    · have hpe : pa ≠ [] := by
        intro hz
        rw [hz] at hx
        exact absurd hx (by simp)
      rw [hb4 hpe]
      exact Or.inr hx
  · intro hnl0
    have hnl' : nl = [] := hnl_iff hnl0
    by_cases hpe : pa = []
    · rw [hb5 hpe]
      decide
    · rw [hb4 hpe]
      exact (hsafe hnl').1
  · intro hnl0 hm
    have hnl' : nl = [] := hnl_iff hnl0
    rcases (hsafe hnl').2 hm with hx | hx
    · exact Or.inr (by rw [hb5 hx]; rfl)
    · by_cases hpe : pa = []
      · rw [hb5 hpe]
        exact Or.inr rfl
      · rw [hb4 hpe]
        exact Or.inr hx

theorem normalize_url_eq (u : String) (hs : (urlsplit u).scheme ≠ "") :
    normalize_url u = urlunsplit (normTarget (urlsplit u)) := by
  unfold normalize_url normTarget
  rw [if_neg hs]

theorem normTarget_safe_good (u : String) (hs : (urlsplit u).scheme ≠ "")
    (hH : NormSafe (urlsplit u)) : GoodParts (normTarget (urlsplit u)) := by
  obtain ⟨hg0, h1, h2, h3, h4, h5, h6, h7, h8⟩ := urlsplit_invariants u
  exact normTarget_good_of (urlsplit u) (hg0.resolve_left hs) h1 h2 h3 h4 h5
    h6 h7 h8 hH

/-- When the parse is NormSafe, normalize_url's output parses back exactly
to the transformed components. -/
theorem normalize_parse (u : String) (hs : (urlsplit u).scheme ≠ "")
    (hH : NormSafe (urlsplit u)) :
    urlsplit (normalize_url u) = normTarget (urlsplit u) := by
  rw [normalize_url_eq u hs]
  exact urlunsplit_roundtrip _ (normTarget_safe_good u hs hH)

theorem normTarget_fix (p : UrlParts) (hgsc : pyLower p.scheme = p.scheme)
    (hgnl : pyLower p.netloc = p.netloc) (hpath : p.path ≠ "")
    (hfr : p.fragment = "") : normTarget p = p := by
  unfold normTarget
  rw [hgsc, hgnl, if_neg hpath, ← hfr]

theorem normTarget_path_ne (p : UrlParts) : (normTarget p).path ≠ "" := by
  unfold normTarget
  by_cases hpe : p.path = ""
  · rw [if_pos hpe]
    show ("/" : String) ≠ ""
    decide
  · rw [if_neg hpe]
    exact hpe

theorem pyLower_netloc_lower (p : UrlParts) :
    pyLower (normTarget p).netloc = (normTarget p).netloc := by
  show pyLower (pyLower p.netloc) = pyLower p.netloc
  exact pyLower_idem p.netloc

theorem normTarget_idem (p : UrlParts) :
    normTarget (normTarget p) = normTarget p := by
  apply normTarget_fix
  · show pyLower (pyLower p.scheme) = pyLower p.scheme
    exact pyLower_idem p.scheme
  · exact pyLower_netloc_lower p
  · exact normTarget_path_ne p
  · rfl

/-- Idempotence of normalize_url on NormSafe parses. -/
theorem normalize_idem_of_safe (u : String)
    (hs : (urlsplit u).scheme ≠ "") (hH : NormSafe (urlsplit u)) :
    normalize_url (normalize_url u) = normalize_url u := by
  have h1 : urlsplit (normalize_url u) = normTarget (urlsplit u) :=
    normalize_parse u hs hH
  have hs2 : (urlsplit (normalize_url u)).scheme ≠ "" := by
    rw [h1]
    exact pyLower_ne_empty hs
  rw [normalize_url_eq (normalize_url u) hs2, h1,
    normTarget_idem (urlsplit u), ← normalize_url_eq u hs]

/-! ## Claim C7: the scope policy -/

/-- Claim C7: for every URL string u and crawl context ctx, same_site(u,
ctx) is true exactly when u's host (lowercased) is one of
ctx.allowed_hosts or ends with "." followed by ctx.root_host; for root
https://a.com the hosts sub.a.com and www.a.com are in scope while
a.com.evil.com and other.com are not. -/
theorem claim7_same_site_scope :
    (∀ url ctx, same_site url ctx = true ↔
      (pyLower (urlsplit url).netloc ∈ ctx.allowed_hosts ∨
        ∃ pre, (pyLower (urlsplit url).netloc).data =
          pre ++ ('.' :: ctx.root_host.data))) ∧
    same_site "https://sub.a.com/x" (build_ctx "https://a.com") = true ∧
    same_site "https://www.a.com/" (build_ctx "https://a.com") = true ∧
    same_site "https://a.com.evil.com/" (build_ctx "https://a.com") = false ∧
    same_site "https://other.com/" (build_ctx "https://a.com") = false := by
  refine ⟨fun url ctx => ?_, by decide, by decide, by decide, by decide⟩
  unfold same_site
  have hdot : ("." ++ ctx.root_host).data = '.' :: ctx.root_host.data := by
    rw [String.data_append]
    rfl
  rw [Bool.or_eq_true, decide_eq_true_eq, strEndsWith_iff, hdot]

/-! ## Claims C8 and C9: normalize_url -/

theorem normalize_idem_rooting (u : String)
    (hs : (urlsplit u).scheme ≠ "") (hnl : (urlsplit u).netloc = "")
    (htk : (urlsplit u).path.data.take 2 ≠ ['/', '/'])
    (hunl : (urlsplit u).scheme ∈ uses_netloc)
    (hpne : (urlsplit u).path ≠ "")
    (hhead : ¬((urlsplit u).path.data.head? = some '/')) :
    normalize_url (normalize_url u) = normalize_url u := by
  obtain ⟨hg0, hnlc, hnlok, hpa1, hpa2, hpaok, hq1, hqok, hrooted⟩ :=
    urlsplit_invariants u
  have hsO := hs
  rcases hps : urlsplit u with ⟨⟨sc⟩, ⟨nl⟩, ⟨pa⟩, ⟨q⟩, ⟨fg⟩⟩
  rw [hps] at hg0 hs hnl htk hunl hpne hhead hpa1 hpa2 hpaok hq1 hqok
  dsimp only at hg0 hs hnl htk hunl hpne hhead hpa1 hpa2 hpaok hq1 hqok
  have hsc : sc ≠ [] := fun h => hs (by rw [h])
  have hnl0 : nl = [] := congrArg String.data hnl
  subst hnl0
  have hpa0 : pa ≠ [] := fun h => hpne (by rw [h])
  obtain ⟨a, pa', rfl⟩ : ∃ a t, pa = a :: t := by
    cases pa with
    | nil => exact absurd rfl hpa0
    | cons a t => exact ⟨a, t, rfl⟩
  have ha : a ≠ '/' := fun h => hhead (by rw [h]; rfl)
  have hg : GoodScheme sc := hg0.resolve_left hs
  have hTgood : GoodParts ⟨⟨sc⟩, "", ⟨'/' :: a :: pa'⟩, ⟨q⟩, ""⟩ := by
    refine ⟨hg, ?_, ?_, ?_, ?_, ?_, hq1, hqok, rfl, ?_, ?_, ?_⟩
    · intro c hc
      exact absurd hc (List.not_mem_nil c)
    · intro c hc
      exact absurd hc (List.not_mem_nil c)
    · intro hm
      rcases List.mem_cons.mp hm with h | h
      · exact absurd h (by decide)
      · exact hpa1 h
    · intro hm
      rcases List.mem_cons.mp hm with h | h
      · exact absurd h (by decide)
      · exact hpa2 h
    · exact charsOk_cons (by decide) hpaok
    · intro h
      exact absurd rfl h
    · intro _ hc
      have : a = '/' := by
        have := List.tail_eq_of_cons_eq hc
        exact List.head_eq_of_cons_eq this
      exact ha this
    · intro _ _
      exact Or.inr rfl
  have hTs : normalize_url u =
      urlunsplit ⟨⟨sc⟩, "", ⟨'/' :: a :: pa'⟩, ⟨q⟩, ""⟩ := by
    rw [normalize_url_eq u hsO, hps]
    have hN : normTarget ⟨⟨sc⟩, "", ⟨a :: pa'⟩, ⟨q⟩, ⟨fg⟩⟩ =
        ⟨⟨sc⟩, "", ⟨a :: pa'⟩, ⟨q⟩, ""⟩ := by
      unfold normTarget
      rw [good_scheme_pyLower_fix hg,
        if_neg (string_mk_ne_empty (by simp))]
      rfl
    rw [hN, urlunsplit_mk sc [] (a :: pa') q hsc,
      urlunsplit_mk sc [] ('/' :: a :: pa') q hsc]
    have e1 : (if (a :: pa') ≠ [] ∧ (a :: pa').take 1 ≠ ['/']
        then '/' :: a :: pa' else a :: pa') = '/' :: a :: pa' := by
      rw [if_pos]
      exact ⟨by simp, by
        intro h
        exact ha (List.head_eq_of_cons_eq h)⟩
    have e2 : (if ('/' :: a :: pa') ≠ [] ∧ ('/' :: a :: pa').take 1 ≠ ['/']
        then '/' :: '/' :: a :: pa' else '/' :: a :: pa') =
        '/' :: a :: pa' := by
      rw [if_neg]
      intro h
      exact h.2 rfl
    have c1 : (([] : List Char) ≠ [] ∨ (sc ≠ [] ∧ (⟨sc⟩ : String) ∈
        uses_netloc ∧ (a :: pa').take 2 ≠ ['/', '/'])) :=
      Or.inr ⟨hsc, hunl, htk⟩
    have c2 : (([] : List Char) ≠ [] ∨ (sc ≠ [] ∧ (⟨sc⟩ : String) ∈
        uses_netloc ∧ ('/' :: a :: pa').take 2 ≠ ['/', '/'])) :=
      Or.inr ⟨hsc, hunl, by
        intro h
        have := List.tail_eq_of_cons_eq h
        exact ha (List.head_eq_of_cons_eq this)⟩
    rw [if_pos c1, if_pos c2, e1, e2]
  have h2 : urlsplit (normalize_url u) =
      ⟨⟨sc⟩, "", ⟨'/' :: a :: pa'⟩, ⟨q⟩, ""⟩ := by
    rw [hTs]
    exact urlunsplit_roundtrip _ hTgood
  have hs2 : (urlsplit (normalize_url u)).scheme ≠ "" := by
    rw [h2]
    exact fun h => hsc (congrArg String.data h)
  rw [normalize_url_eq _ hs2, h2,
    normTarget_fix _ (good_scheme_pyLower_fix hg) rfl
      (string_mk_ne_empty (by simp)) rfl]
  exact hTs.symm

/-- Claim C8 (amended): for every input string u, if u parses without a
scheme then normalize_url returns u unchanged (and, being total, never
raises); if u parses with a scheme, then — provided the parse has a
nonempty netloc, or a path that neither begins with "//" nor is a relative
path under a uses_netloc scheme (NormSafe) — the output parses back to the
lowercased scheme and netloc, the fragment removed, the path defaulted to
"/" when empty, and the query kept intact, so two such URLs differing only
in the query normalize to distinct strings.  Without the NormSafe proviso
the claim fails, see the counterexample. -/
theorem claim8_normalize_components :
    ∀ u : String,
      ((urlsplit u).scheme = "" → normalize_url u = u) ∧
      ((urlsplit u).scheme ≠ "" → NormSafe (urlsplit u) →
        urlsplit (normalize_url u) =
          ⟨pyLower (urlsplit u).scheme, pyLower (urlsplit u).netloc,
            (if (urlsplit u).path = "" then "/" else (urlsplit u).path),
            (urlsplit u).query, ""⟩) ∧
      (∀ v : String, (urlsplit u).scheme ≠ "" → (urlsplit v).scheme ≠ "" →
        NormSafe (urlsplit u) → NormSafe (urlsplit v) →
        (urlsplit u).scheme = (urlsplit v).scheme →
        (urlsplit u).netloc = (urlsplit v).netloc →
        (urlsplit u).path = (urlsplit v).path →
        (urlsplit u).query ≠ (urlsplit v).query →
        normalize_url u ≠ normalize_url v) := by
  intro u
  refine ⟨?_, ?_, ?_⟩
  · intro hs
    unfold normalize_url
    rw [if_pos hs]
  · intro hs hH
    exact normalize_parse u hs hH
  · intro v hsu hsv hHu hHv _ _ _ hqne heq
    have h1 := normalize_parse u hsu hHu
    have h2 := normalize_parse v hsv hHv
    have h3 : normTarget (urlsplit u) = normTarget (urlsplit v) := by
      rw [← h1, ← h2, heq]
    have h4 : (normTarget (urlsplit u)).query =
        (normTarget (urlsplit v)).query := congrArg UrlParts.query h3
    exact hqne h4

/-- Claim C8's counterexample: "http:////x" has a scheme and an empty
host, yet its normalized form "http://x" parses with host "x" — the
components are not preserved as the claim states. -/
theorem claim8_counterexample :
    (urlsplit "http:////x").scheme ≠ "" ∧
    pyLower (urlsplit "http:////x").netloc = "" ∧
    normalize_url "http:////x" = "http://x" ∧
    (urlsplit (normalize_url "http:////x")).netloc = "x" := by
  refine ⟨?_, ?_, ?_, ?_⟩ <;> decide

/-- Claim C8's witness: a concrete URL with scheme, host, empty path,
query and fragment, run through the amended theorem. -/
theorem claim8_witness :
    (urlsplit "HTTP://A.com?q=1#f").scheme ≠ "" ∧
    urlsplit (normalize_url "HTTP://A.com?q=1#f") =
      ⟨pyLower (urlsplit "HTTP://A.com?q=1#f").scheme,
        pyLower (urlsplit "HTTP://A.com?q=1#f").netloc,
        (if (urlsplit "HTTP://A.com?q=1#f").path = "" then "/"
          else (urlsplit "HTTP://A.com?q=1#f").path),
        (urlsplit "HTTP://A.com?q=1#f").query, ""⟩ :=
  ⟨by decide, (claim8_normalize_components "HTTP://A.com?q=1#f").2.1
    (by decide) (by unfold NormSafe; decide)⟩

/-- Claim C9 (amended): normalize_url is idempotent on every URL except
those parsing to a scheme with an empty netloc and a path beginning with
"//" (inputs of the shape "scheme:////..."), where the unparse step fuses
the path into a netloc. -/
theorem claim9_normalize_idempotent :
    ∀ u : String,
      ((urlsplit u).scheme = "" ∨ (urlsplit u).netloc ≠ "" ∨
        (urlsplit u).path.data.take 2 ≠ ['/', '/']) →
      normalize_url (normalize_url u) = normalize_url u := by
  intro u hcond
  by_cases hs : (urlsplit u).scheme = ""
  · have hid : normalize_url u = u := by
      unfold normalize_url
      rw [if_pos hs]
    rw [hid]
    exact hid
  · rcases hcond with hc | hc | hc
    · exact absurd hc hs
    · exact normalize_idem_of_safe u hs (Or.inl hc)
    · by_cases hnl : (urlsplit u).netloc = ""
      · by_cases himp : (urlsplit u).scheme ∈ uses_netloc →
            ((urlsplit u).path = "" ∨
              (urlsplit u).path.data.head? = some '/')
        · exact normalize_idem_of_safe u hs (Or.inr ⟨hc, himp⟩)
        · push_neg at himp
          obtain ⟨hunl, hpne, hhead⟩ := himp
          exact normalize_idem_rooting u hs hnl hc hunl hpne hhead
      · exact normalize_idem_of_safe u hs (Or.inl hnl)

/-- Claim C9's counterexample: normalize_url("https:////y") is
"https://y", which normalizes again to "https://y/" — idempotence fails. -/
theorem claim9_counterexample :
    normalize_url (normalize_url "https:////y") ≠
      normalize_url "https:////y" := by
  decide

/-- Claim C9's witness: idempotence at a concrete URL through the amended
theorem. -/
theorem claim9_witness :
    normalize_url (normalize_url "HTTP://ExAmple.COM/Path?Q=1#frag") =
      normalize_url "HTTP://ExAmple.COM/Path?Q=1#frag" :=
  claim9_normalize_idempotent "HTTP://ExAmple.COM/Path?Q=1#frag"
    (by decide)

/-! ## List bookkeeping lemmas for the crawl -/

theorem countP_set_aux {α : Type} (p : α → Bool) :
    ∀ (l : List α) (i : Nat) (a b : α), l[i]? = some b →
      l.countP p + (if p a then 1 else 0) =
        (l.set i a).countP p + (if p b then 1 else 0) := by
  intro l
  induction l with
  | nil =>
    intro i a b h
    simp at h
  | cons x xs ih =>
    intro i a b h
    cases i with
    | zero =>
      simp only [List.getElem?_cons_zero, Option.some_inj] at h
      subst h
      simp only [List.set_cons_zero, List.countP_cons]
      omega
    | succ j =>
      simp only [List.getElem?_cons_succ] at h
      simp only [List.set_cons_succ, List.countP_cons]
      have := ih j a b h
      omega

theorem sum_map_set {α : Type} (f : α → Nat) :
    ∀ (l : List α) (i : Nat) (a b : α), l[i]? = some b →
      (l.map f).sum + f a = ((l.set i a).map f).sum + f b := by
  intro l
  induction l with
  | nil =>
    intro i a b h
    simp at h
  | cons x xs ih =>
    intro i a b h
    cases i with
    | zero =>
      simp only [List.getElem?_cons_zero, Option.some_inj] at h
      subst h
      simp only [List.set_cons_zero, List.map_cons, List.sum_cons]
      omega
    | succ j =>
      simp only [List.getElem?_cons_succ] at h
      simp only [List.set_cons_succ, List.map_cons, List.sum_cons]
      have := ih j a b h
      omega

theorem insertSet_length (u : String) (l : List String) :
    (insertSet u l).length = l.length ∨
      (insertSet u l).length = l.length + 1 := by
  unfold insertSet
  by_cases h : u ∈ l
  · rw [if_pos h]
    exact Or.inl rfl
  · rw [if_neg h]
    exact Or.inr rfl

theorem insertSet_mem {u v : String} {l : List String}
    (h : v ∈ insertSet u l) : v = u ∨ v ∈ l := by
  unfold insertSet at h
  by_cases hm : u ∈ l
  · rw [if_pos hm] at h
    exact Or.inr h
  · rw [if_neg hm] at h
    exact (List.mem_cons.mp h).imp id id

theorem insertSet_nodup {u : String} {l : List String} (h : l.Nodup) :
    (insertSet u l).Nodup := by
  unfold insertSet
  by_cases hm : u ∈ l
  · rwa [if_pos hm]
  · rw [if_neg hm]
    exact List.nodup_cons.mpr ⟨hm, h⟩

theorem insertSet_count_le {u v : String} {l : List String} (h : l.Nodup) :
    (insertSet u l).count v ≤ 1 := by
  have h2 : (insertSet u l).Nodup := insertSet_nodup h
  by_cases hm : v ∈ insertSet u l
  · exact le_of_eq (List.count_eq_one_of_mem h2 hm)
  · rw [List.count_eq_zero.mpr hm]
    omega

theorem mergeSeeds_length (maxPages : Nat) :
    ∀ (seed allUrls : List String),
      (mergeSeeds maxPages allUrls seed).length ≤
        max allUrls.length maxPages := by
  intro seed
  induction seed with
  | nil =>
    intro allUrls
    exact le_max_left _ _
  | cons u rest ih =>
    intro allUrls
    unfold mergeSeeds
    by_cases h : maxPages ≤ allUrls.length
    · rw [if_pos h]
      exact le_max_left _ _
    · rw [if_neg h]
      refine le_trans (ih (insertSet u allUrls)) ?_
      rcases insertSet_length u allUrls with he | he <;> omega

theorem mergeSeeds_nonempty (maxPages : Nat) :
    ∀ (seed allUrls : List String), allUrls ≠ [] →
      mergeSeeds maxPages allUrls seed ≠ [] := by
  intro seed
  induction seed with
  | nil =>
    intro allUrls h
    exact h
  | cons u rest ih =>
    intro allUrls h
    unfold mergeSeeds
    by_cases hc : maxPages ≤ allUrls.length
    · rw [if_pos hc]
      exact h
    · rw [if_neg hc]
      apply ih
      unfold insertSet
      by_cases hm : u ∈ allUrls
      · rwa [if_pos hm]
      · rw [if_neg hm]
        simp

theorem insertSorted_length (u : String) :
    ∀ l : List String, (insertSorted u l).length = l.length + 1 := by
  intro l
  induction l with
  | nil => rfl
  | cons v vs ih =>
    unfold insertSorted
    by_cases h : strLe u v
    · rw [if_pos h]
      rfl
    · rw [if_neg h]
      simp only [List.length_cons, ih]

theorem sortStrings_length (l : List String) :
    (sortStrings l).length = l.length := by
  induction l with
  | nil => rfl
  | cons u us ih =>
    show (insertSorted u (sortStrings us)).length = us.length + 1
    rw [insertSorted_length, ih]

theorem insertSorted_mem {u v : String} :
    ∀ {l : List String}, v ∈ insertSorted u l ↔ v = u ∨ v ∈ l := by
  intro l
  induction l with
  | nil => simp [insertSorted]
  | cons w ws ih =>
    unfold insertSorted
    by_cases h : strLe u w
    · rw [if_pos h]
      simp
    · rw [if_neg h]
      simp only [List.mem_cons, ih]
      tauto

theorem sortStrings_mem {v : String} :
    ∀ {l : List String}, v ∈ sortStrings l ↔ v ∈ l := by
  intro l
  induction l with
  | nil => simp [sortStrings]
  | cons u us ih =>
    show v ∈ insertSorted u (sortStrings us) ↔ _
    rw [insertSorted_mem]
    simp only [List.mem_cons, ih]

/-! ## The step characterization -/

theorem crawlStep_cases (cfg : CrawlConfig) (s : BfsState) (a : CrawlAct)
    (s' : BfsState) (h : crawlStep cfg s a = some s') :
    (∃ i u q, a = CrawlAct.recv i ∧
      s.workers[i]? = some WStatus.waitingGet ∧
      s.queue = u :: q ∧ u ∈ s.seen ∧
      s' = { s with
        queue := q,
        workers := s.workers.set i (afterSkip cfg s.results) }) ∨
    (∃ i u q, a = CrawlAct.recv i ∧
      s.workers[i]? = some WStatus.waitingGet ∧
      s.queue = u :: q ∧ u ∉ s.seen ∧
      (same_site u (build_ctx cfg.rootUrl) &&
        !(matchesAny cfg.excludePatterns u)) = true ∧
      s' = { s with
        queue := q,
        seen := u :: s.seen,
        workers := s.workers.set i (WStatus.fetching u),
        fetchLog := s.fetchLog ++ [u] }) ∨
    (∃ i u q, a = CrawlAct.recv i ∧
      s.workers[i]? = some WStatus.waitingGet ∧
      s.queue = u :: q ∧ u ∉ s.seen ∧
      (same_site u (build_ctx cfg.rootUrl) &&
        !(matchesAny cfg.excludePatterns u)) = false ∧
      s' = { s with
        queue := q,
        seen := u :: s.seen,
        workers := s.workers.set i (afterSkip cfg s.results) }) ∨
    (∃ i u, a = CrawlAct.finish i ∧
      s.workers[i]? = some (WStatus.fetching u) ∧ cfg.graph u = none ∧
      s' = { s with workers := s.workers.set i (afterSkip cfg s.results) }) ∨
    (∃ i u links, a = CrawlAct.finish i ∧
      s.workers[i]? = some (WStatus.fetching u) ∧ cfg.graph u = some links ∧
      cfg.maxPages ≤ (insertSet u s.results).length ∧
      s' = { s with
        results := insertSet u s.results,
        workers := s.workers.set i WStatus.done }) ∨
    (∃ i u links, a = CrawlAct.finish i ∧
      s.workers[i]? = some (WStatus.fetching u) ∧ cfg.graph u = some links ∧
      ¬(cfg.maxPages ≤ (insertSet u s.results).length) ∧
      s' = { s with
        results := insertSet u s.results,
        queue := s.queue ++ links.filter
          (fun l => same_site l (build_ctx cfg.rootUrl) &&
            !(decide (l ∈ s.seen))),
        workers := s.workers.set i WStatus.waitingGet }) ∨
    (∃ i, a = CrawlAct.idle i ∧ s.workers[i]? = some WStatus.waitingGet ∧
      s.queue = [] ∧
      s' = { s with workers := s.workers.set i WStatus.done }) := by
  cases a with
  | recv i =>
    simp only [crawlStep, recvStep] at h
    split at h
    next hw =>
      split at h
      next hq => exact absurd h (by simp)
      next u q hq =>
        split at h
        next hseen =>
          exact Or.inl ⟨i, u, q, rfl, hw, hq, hseen,
            (Option.some_inj.mp h).symm⟩
        next hseen =>
          split at h
          next hflt =>
            exact Or.inr (Or.inl ⟨i, u, q, rfl, hw, hq, hseen, hflt,
              (Option.some_inj.mp h).symm⟩)
          next hflt =>
            exact Or.inr (Or.inr (Or.inl ⟨i, u, q, rfl, hw, hq, hseen,
              Bool.eq_false_iff.mpr hflt, (Option.some_inj.mp h).symm⟩))
    next hw => exact absurd h (by simp)
  | finish i =>
    simp only [crawlStep, finishStep] at h
    split at h
    next u hw =>
      split at h
      next hg =>
        exact Or.inr (Or.inr (Or.inr (Or.inl ⟨i, u, rfl, hw, hg,
          (Option.some_inj.mp h).symm⟩)))
      next links hg =>
        split at h
        next hcap =>
          exact Or.inr (Or.inr (Or.inr (Or.inr (Or.inl ⟨i, u, links, rfl,
            hw, hg, hcap, (Option.some_inj.mp h).symm⟩))))
        next hcap =>
          exact Or.inr (Or.inr (Or.inr (Or.inr (Or.inr (Or.inl ⟨i, u,
            links, rfl, hw, hg, hcap, (Option.some_inj.mp h).symm⟩)))))
    next hw => exact absurd h (by simp)
  | idle i =>
    simp only [crawlStep, idleStep] at h
    split at h
    next hw =>
      split at h
      next hq =>
        exact Or.inr (Or.inr (Or.inr (Or.inr (Or.inr (Or.inr ⟨i, rfl, hw,
          hq, (Option.some_inj.mp h).symm⟩)))))
      next hq => exact absurd h (by simp)
    next hw => exact absurd h (by simp)

/-! ## The crawl invariant -/

theorem getElem_set_cases {α : Type} (l : List α) (i j : Nat) (a v : α)
    (h : (l.set i a)[j]? = some v) :
    (i = j ∧ v = a) ∨ (i ≠ j ∧ l[j]? = some v) := by
  rw [List.getElem?_set] at h
  by_cases hij : i = j
  · rw [if_pos hij] at h
    by_cases hlt : i < l.length
    · rw [if_pos hlt] at h
      exact Or.inl ⟨hij, (Option.some_inj.mp h).symm⟩
    · rw [if_neg hlt] at h
      exact absurd h (by simp)
  · rw [if_neg hij] at h
    exact Or.inr ⟨hij, h⟩

theorem nodup_append_singleton {l : List String} {u : String}
    (h : l.Nodup) (hu : u ∉ l) : (l ++ [u]).Nodup := by
  rw [List.nodup_append]
  refine ⟨h, List.nodup_singleton u, ?_⟩
  intro a ha hb
  rw [List.mem_singleton] at hb
  subst hb
  exact hu ha

theorem afterSkip_not_fetching (cfg : CrawlConfig) (r : List String)
    (u : String) : afterSkip cfg r ≠ WStatus.fetching u := by
  unfold afterSkip
  split <;> simp

theorem activeW_le_one (w : WStatus) :
    (if activeW w then 1 else 0) ≤ 1 := by
  split <;> omega

theorem inv_init (cfg : CrawlConfig) (hmp : 1 ≤ cfg.maxPages) :
    Inv cfg (initState cfg) := by
  refine ⟨?_, ?_, ?_, ?_, ?_, ?_, ?_⟩
  · simp [initState]
  · intro u hu
    exact absurd hu (List.not_mem_nil u)
  · intro i u hw
    exfalso
    have hrep : (initState cfg).workers =
        List.replicate cfg.concurrency
          (if 0 < cfg.maxPages then WStatus.waitingGet else WStatus.done) :=
      rfl
    rw [hrep, List.getElem?_replicate] at hw
    by_cases hi : i < cfg.concurrency
    · rw [if_pos hi] at hw
      have h2 := Option.some_inj.mp hw
      by_cases hb : 0 < cfg.maxPages
      · rw [if_pos hb] at h2
        exact absurd h2 (by simp)
      · rw [if_neg hb] at h2
        exact absurd h2 (by simp)
    · rw [if_neg hi] at hw
      exact absurd hw (by simp)
  · have h1 : (initState cfg).results.length = 0 := rfl
    have h2 : activeCount (initState cfg).workers ≤ cfg.concurrency := by
      have h3 := List.countP_le_length (l := (initState cfg).workers) activeW
      have hlen : (initState cfg).workers.length = cfg.concurrency := by
        simp [initState]
      rw [hlen] at h3
      exact h3
    rw [h1]
    omega
  · exact List.nodup_nil
  · exact List.nodup_nil
  · intro u hu
    exact absurd hu (List.not_mem_nil u)

theorem inv_step (cfg : CrawlConfig) (s : BfsState) (a : CrawlAct)
    (s' : BfsState) (hI : Inv cfg s) (h : crawlStep cfg s a = some s') :
    Inv cfg s' := by
  obtain ⟨hw, hres, hfet, hcap, hnd, hlnd, hlseen⟩ := hI
  have hactR := countP_set_aux activeW s.workers
  rcases crawlStep_cases cfg s a s' h with
    ⟨i, u, q, -, hwi, hq, hseen, rfl⟩ |
    ⟨i, u, q, -, hwi, hq, hseen, hflt, rfl⟩ |
    ⟨i, u, q, -, hwi, hq, hseen, hflt, rfl⟩ |
    ⟨i, u, -, hwi, hg, rfl⟩ |
    ⟨i, u, links, -, hwi, hg, hcap2, rfl⟩ |
    ⟨i, u, links, -, hwi, hg, hcap2, rfl⟩ |
    ⟨i, -, hwi, hq, rfl⟩
  · -- receive, already seen: skip
    refine ⟨by dsimp only; rw [List.length_set]; exact hw, hres, ?_, ?_,
      hnd, hlnd, hlseen⟩
    · intro j v hj
      dsimp only at hj
      rcases getElem_set_cases _ i j _ _ hj with ⟨-, hv⟩ | ⟨-, hj2⟩
      · exact absurd hv.symm (afterSkip_not_fetching cfg s.results v)
      · exact hfet j v hj2
    · have heq := hactR i (afterSkip cfg s.results) WStatus.waitingGet hwi
      have h1 := activeW_le_one (afterSkip cfg s.results)
      show s.results.length +
        activeCount (s.workers.set i (afterSkip cfg s.results)) + 1 ≤ _
      unfold activeCount at heq hcap ⊢
      simp only [show (if activeW WStatus.waitingGet then 1 else 0) = 1
        from rfl] at heq
      omega
  · -- receive, fresh, passes the filters: fetch begins
    obtain ⟨hsame, hexcl⟩ := Bool.and_eq_true _ _ |>.mp hflt
    rw [Bool.not_eq_true'] at hexcl
    refine ⟨by dsimp only; rw [List.length_set]; exact hw, hres, ?_, ?_,
      hnd, ?_, ?_⟩
    · intro j v hj
      dsimp only at hj
      rcases getElem_set_cases _ i j _ _ hj with ⟨-, hv⟩ | ⟨-, hj2⟩
      · have hv2 : v = u := by
          injection hv
        subst hv2
        exact ⟨hsame, hexcl, List.mem_cons_self v s.seen⟩
      · obtain ⟨ha, hb, hc⟩ := hfet j v hj2
        exact ⟨ha, hb, List.mem_cons_of_mem u hc⟩
    · have heq := hactR i (WStatus.fetching u) WStatus.waitingGet hwi
      show s.results.length +
        activeCount (s.workers.set i (WStatus.fetching u)) + 1 ≤ _
      unfold activeCount at heq hcap ⊢
      simp only [show (if activeW WStatus.waitingGet then 1 else 0) = 1
        from rfl, show (if activeW (WStatus.fetching u) then 1 else 0) = 1
        from rfl] at heq
      omega
    · dsimp only
      apply nodup_append_singleton hlnd
      intro hu
      exact hseen (hlseen u hu)
    · intro v hv
      dsimp only at hv ⊢
      rcases List.mem_append.mp hv with hv2 | hv2
      · exact List.mem_cons_of_mem u (hlseen v hv2)
      · rw [List.mem_singleton] at hv2
        subst hv2
        exact List.mem_cons_self v s.seen
  · -- receive, fresh, filtered out: skip
    refine ⟨by dsimp only; rw [List.length_set]; exact hw, hres, ?_, ?_,
      hnd, hlnd, ?_⟩
    · intro j v hj
      dsimp only at hj
      rcases getElem_set_cases _ i j _ _ hj with ⟨-, hv⟩ | ⟨-, hj2⟩
      · exact absurd hv.symm (afterSkip_not_fetching cfg s.results v)
      · obtain ⟨ha, hb, hc⟩ := hfet j v hj2
        exact ⟨ha, hb, List.mem_cons_of_mem u hc⟩
    · have heq := hactR i (afterSkip cfg s.results) WStatus.waitingGet hwi
      have h1 := activeW_le_one (afterSkip cfg s.results)
      show s.results.length +
        activeCount (s.workers.set i (afterSkip cfg s.results)) + 1 ≤ _
      unfold activeCount at heq hcap ⊢
      simp only [show (if activeW WStatus.waitingGet then 1 else 0) = 1
        from rfl] at heq
      omega
    · intro v hv
      exact List.mem_cons_of_mem u (hlseen v hv)
  · -- fetch fails or is not HTML: skip
    refine ⟨by dsimp only; rw [List.length_set]; exact hw, hres, ?_, ?_,
      hnd, hlnd, hlseen⟩
    · intro j v hj
      dsimp only at hj
      rcases getElem_set_cases _ i j _ _ hj with ⟨-, hv⟩ | ⟨-, hj2⟩
      · exact absurd hv.symm (afterSkip_not_fetching cfg s.results v)
      · exact hfet j v hj2
    · have heq := hactR i (afterSkip cfg s.results) (WStatus.fetching u) hwi
      have h1 := activeW_le_one (afterSkip cfg s.results)
      show s.results.length +
        activeCount (s.workers.set i (afterSkip cfg s.results)) + 1 ≤ _
      unfold activeCount at heq hcap ⊢
      simp only [show (if activeW (WStatus.fetching u) then 1 else 0) = 1
        from rfl] at heq
      omega
  · -- fetch lands, the cap is reached: the worker breaks
    refine ⟨by dsimp only; rw [List.length_set]; exact hw, ?_, ?_, ?_,
      insertSet_nodup hnd, hlnd, hlseen⟩
    · intro v hv
      dsimp only at hv
      rcases insertSet_mem hv with rfl | hv2
      · obtain ⟨ha, hb, -⟩ := hfet i v hwi
        exact ⟨ha, hb⟩
      · exact hres v hv2
    · intro j v hj
      dsimp only at hj
      rcases getElem_set_cases _ i j _ _ hj with ⟨-, hv⟩ | ⟨-, hj2⟩
      · exact absurd hv (by simp)
      · exact hfet j v hj2
    · have heq := hactR i WStatus.done (WStatus.fetching u) hwi
      have hlen := insertSet_length u s.results
      show (insertSet u s.results).length +
        activeCount (s.workers.set i WStatus.done) + 1 ≤ _
      unfold activeCount at heq hcap ⊢
      simp only [show (if activeW (WStatus.fetching u) then 1 else 0) = 1
        from rfl, show (if activeW WStatus.done then 1 else 0) = 0
        from rfl] at heq
      rcases hlen with he | he <;> rw [he] <;> omega
  · -- fetch lands under the cap: accept and expand
    refine ⟨by dsimp only; rw [List.length_set]; exact hw, ?_, ?_, ?_,
      insertSet_nodup hnd, hlnd, hlseen⟩
    · intro v hv
      dsimp only at hv
      rcases insertSet_mem hv with rfl | hv2
      · obtain ⟨ha, hb, -⟩ := hfet i v hwi
        exact ⟨ha, hb⟩
      · exact hres v hv2
    · intro j v hj
      dsimp only at hj
      rcases getElem_set_cases _ i j _ _ hj with ⟨-, hv⟩ | ⟨-, hj2⟩
      · exact absurd hv (by simp)
      · exact hfet j v hj2
    · have hcnt : (s.workers.set i WStatus.waitingGet).countP activeW ≤
          cfg.concurrency := by
        have h3 := List.countP_le_length
          (l := s.workers.set i WStatus.waitingGet) activeW
        rw [List.length_set, hw] at h3
        exact h3
      show (insertSet u s.results).length +
        activeCount (s.workers.set i WStatus.waitingGet) + 1 ≤ _
      unfold activeCount
      omega
  · -- the queue stayed empty: the worker times out
    refine ⟨by dsimp only; rw [List.length_set]; exact hw, hres, ?_, ?_,
      hnd, hlnd, hlseen⟩
    · intro j v hj
      dsimp only at hj
      rcases getElem_set_cases _ i j _ _ hj with ⟨-, hv⟩ | ⟨-, hj2⟩
      · exact absurd hv (by simp)
      · exact hfet j v hj2
    · have heq := hactR i WStatus.done WStatus.waitingGet hwi
      show s.results.length +
        activeCount (s.workers.set i WStatus.done) + 1 ≤ _
      unfold activeCount at heq hcap ⊢
      simp only [show (if activeW WStatus.waitingGet then 1 else 0) = 1
        from rfl, show (if activeW WStatus.done then 1 else 0) = 0
        from rfl] at heq
      omega

theorem inv_runFrom (cfg : CrawlConfig) :
    ∀ (acts : List CrawlAct) (s s' : BfsState), Inv cfg s →
      runFrom cfg s acts = some s' → Inv cfg s' := by
  intro acts
  induction acts with
  | nil =>
    intro s s' hI hr
    unfold runFrom at hr
    exact Option.some_inj.mp hr ▸ hI
  | cons a rest ih =>
    intro s s' hI hr
    unfold runFrom at hr
    cases hstep : crawlStep cfg s a with
    | none =>
      rw [hstep] at hr
      exact absurd hr (by simp)
    | some s2 =>
      rw [hstep] at hr
      exact ih s2 s' (inv_step cfg s a s2 hI hstep) hr

theorem inv_run (cfg : CrawlConfig) (hmp : 1 ≤ cfg.maxPages)
    (acts : List CrawlAct) (s : BfsState) (h : runCrawl cfg acts = some s) :
    Inv cfg s :=
  inv_runFrom cfg acts (initState cfg) s (inv_init cfg hmp) h


/-! ## Claims on the crawl -/

theorem crawl_site_length_le (cfg : CrawlConfig) (acts : List CrawlAct)
    (s : BfsState) (out : List String) (hrun : runCrawl cfg acts = some s)
    (hout : crawl_site cfg acts = some out) :
    out.length ≤ max 1 (max s.results.length cfg.maxPages) := by
  unfold crawl_site at hout
  rw [hrun] at hout
  have h2 := Option.some_inj.mp hout
  rw [← h2]
  dsimp only
  by_cases he :
      (mergeSeeds cfg.maxPages s.results cfg.seedUrls).isEmpty = true
  · rw [if_pos he]
    rw [sortStrings_length]
    exact le_max_left _ _
  · rw [if_neg he, sortStrings_length]
    have h3 := mergeSeeds_length cfg.maxPages cfg.seedUrls s.results
    omega

/-- C1: under concurrency the spec's cap `len(results) ≤ maxPages` does not
hold; what the code maintains is that the results count, the count of
workers still running, and one more stay below maxPages + concurrency, so
results — and the crawl_site output list — hold at most
maxPages + concurrency - 1 URLs at any reachable point. -/
theorem claim1_results_cap (cfg : CrawlConfig) (acts : List CrawlAct)
    (s : BfsState) (out : List String) (hmp : 1 ≤ cfg.maxPages)
    (hc : 1 ≤ cfg.concurrency) (hrun : runCrawl cfg acts = some s)
    (hout : crawl_site cfg acts = some out) :
    s.results.length ≤ cfg.maxPages + cfg.concurrency - 1 ∧
    out.length ≤ cfg.maxPages + cfg.concurrency - 1 := by
  have hI := inv_run cfg hmp acts s hrun
  have hcap := hI.cap
  have hlen := crawl_site_length_le cfg acts s out hrun hout
  exact ⟨by omega, by omega⟩

/-- C1 counterexample: one page of budget, two workers, two fetchable
pages; both workers pass the loop guard while results is still empty, so
the completed crawl returns two results and crawl_site a two-element
list. -/
theorem claim1_counterexample :
    (runCrawl cfgOvershoot actsOvershoot).map
        (fun s => decide (cfgOvershoot.maxPages < s.results.length) &&
          allDone s) = some true ∧
    (crawl_site cfgOvershoot actsOvershoot).map
        (fun out => decide (cfgOvershoot.maxPages < out.length)) =
      some true := by
  exact ⟨by decide, by decide⟩

theorem claim1_witness :
    (⟨[], ["https://a.c/"], [], [WStatus.done], ["https://a.c/"]⟩ :
        BfsState).results.length ≤
      cfgUnreachable.maxPages + cfgUnreachable.concurrency - 1 ∧
    (["https://a.c/"] : List String).length ≤
      cfgUnreachable.maxPages + cfgUnreachable.concurrency - 1 :=
  claim1_results_cap cfgUnreachable actsUnreachable
    ⟨[], ["https://a.c/"], [], [WStatus.done], ["https://a.c/"]⟩
    ["https://a.c/"] (by decide) (by decide) (by decide) (by decide)

/-- C2: every URL in the crawl's results set is same-site and matches no
exclusion pattern; the spec's extension of this to the crawl_site output
fails, because the final seed merge adds sitemap/feed URLs without
re-applying either filter. -/
theorem claim2_scope_exclusion (cfg : CrawlConfig) (acts : List CrawlAct)
    (s : BfsState) (hmp : 1 ≤ cfg.maxPages)
    (hrun : runCrawl cfg acts = some s) :
    ∀ u ∈ s.results, same_site u (build_ctx cfg.rootUrl) = true ∧
      matchesAny cfg.excludePatterns u = false :=
  (inv_run cfg hmp acts s hrun).resScope

/-- C2 counterexample: with excludePatterns = ["/privacy"] and a sitemap
listing a /privacy URL, the completed crawl's output is exactly that
excluded URL. -/
theorem claim2_counterexample :
    crawl_site cfgPrivacy actsPrivacy = some ["https://a.c/privacy"] ∧
    matchesAny cfgPrivacy.excludePatterns "https://a.c/privacy" = true ∧
    (runCrawl cfgPrivacy actsPrivacy).map allDone = some true := by
  exact ⟨by decide, by decide, by decide⟩

theorem claim2_witness :
    same_site "https://a.c/b" (build_ctx cfgCycle.rootUrl) = true ∧
    matchesAny cfgCycle.excludePatterns "https://a.c/b" = false :=
  claim2_scope_exclusion cfgCycle actsCycle
    ⟨[], ["https://a.c/b", "https://a.c/"],
      ["https://a.c/b", "https://a.c/"], [WStatus.done],
      ["https://a.c/", "https://a.c/b"]⟩
    (by decide) (by decide) "https://a.c/b" (by decide)

theorem crawlStep_include (cfg : CrawlConfig) (inc : List String)
    (s : BfsState) (a : CrawlAct) :
    crawlStep { cfg with includePatterns := inc } s a =
      crawlStep cfg s a := by
  cases a with
  | recv i => rfl
  | finish i => rfl
  | idle i => rfl

theorem runFrom_include (cfg : CrawlConfig) (inc : List String) :
    ∀ (acts : List CrawlAct) (s : BfsState),
      runFrom { cfg with includePatterns := inc } s acts =
        runFrom cfg s acts := by
  intro acts
  induction acts with
  | nil => intro s; rfl
  | cons a rest ih =>
    intro s
    unfold runFrom
    rw [crawlStep_include]
    cases crawlStep cfg s a with
    | none => rfl
    | some s2 => exact ih s2

/-- C6: includePatterns is dead configuration — two crawls differing only
in it produce identical crawl_site output for every schedule. -/
theorem claim6_include_noninterference (cfg : CrawlConfig)
    (inc1 inc2 : List String) (acts : List CrawlAct) :
    crawl_site { cfg with includePatterns := inc1 } acts =
      crawl_site { cfg with includePatterns := inc2 } acts := by
  unfold crawl_site runCrawl
  rw [show initState { cfg with includePatterns := inc1 } = initState cfg
      from rfl,
    show initState { cfg with includePatterns := inc2 } = initState cfg
      from rfl,
    runFrom_include cfg inc1, runFrom_include cfg inc2]

theorem results_nil_unreachable (cfg : CrawlConfig)
    (hnet : ∀ u, cfg.graph u = none) :
    ∀ (acts : List CrawlAct) (s s' : BfsState), s.results = [] →
      runFrom cfg s acts = some s' → s'.results = [] := by
  intro acts
  induction acts with
  | nil =>
    intro s s' h hr
    unfold runFrom at hr
    exact Option.some_inj.mp hr ▸ h
  | cons a rest ih =>
    intro s s' h hr
    unfold runFrom at hr
    cases hstep : crawlStep cfg s a with
    | none =>
      rw [hstep] at hr
      exact absurd hr (by simp)
    | some s2 =>
      rw [hstep] at hr
      refine ih s2 s' ?_ hr
      rcases crawlStep_cases cfg s a s2 hstep with
        ⟨i, u, q, -, -, -, -, rfl⟩ | ⟨i, u, q, -, -, -, -, -, rfl⟩ |
        ⟨i, u, q, -, -, -, -, -, rfl⟩ | ⟨i, u, -, -, -, rfl⟩ |
        ⟨i, u, links, -, -, hg, -, rfl⟩ | ⟨i, u, links, -, -, hg, -, rfl⟩ |
        ⟨i, -, -, -, rfl⟩
      · exact h
      · exact h
      · exact h
      · exact h
      · exact Option.noConfusion ((hnet u).symm.trans hg)
      · exact Option.noConfusion ((hnet u).symm.trans hg)
      · exact h

/-- C5: with a dead network (every fetch fails) and no discovered seeds,
any completed crawl_site call returns exactly the one-element list holding
the root URL. -/
theorem claim5_unreachable_fallback (cfg : CrawlConfig)
    (acts : List CrawlAct) (out : List String)
    (hseed : cfg.seedUrls = []) (hnet : ∀ u, cfg.graph u = none)
    (hout : crawl_site cfg acts = some out) :
    out = [cfg.rootUrl] := by
  unfold crawl_site at hout
  cases hrun : runCrawl cfg acts with
  | none =>
    rw [hrun] at hout
    exact absurd hout (by simp)
  | some s =>
    rw [hrun] at hout
    have hres : s.results = [] :=
      results_nil_unreachable cfg hnet acts (initState cfg) s rfl hrun
    have h2 : sortStrings (if (mergeSeeds cfg.maxPages s.results
          cfg.seedUrls).isEmpty = true then [cfg.rootUrl]
        else mergeSeeds cfg.maxPages s.results cfg.seedUrls) = out :=
      Option.some_inj.mp hout
    rw [hseed, hres] at h2
    exact h2.symm.trans rfl

theorem claim5_witness :
    (["https://a.c/"] : List String) = [cfgUnreachable.rootUrl] :=
  claim5_unreachable_fallback cfgUnreachable actsUnreachable
    ["https://a.c/"] rfl (fun _ => rfl) (by decide)


theorem queue_count_step (cfg : CrawlConfig) (s s' : BfsState)
    (a : CrawlAct) (u : String) (h : crawlStep cfg s a = some s')
    (hu : u ∈ s.seen) :
    u ∈ s'.seen ∧ s'.queue.count u ≤ s.queue.count u := by
  rcases crawlStep_cases cfg s a s' h with
    ⟨i, v, q, -, -, hq, -, rfl⟩ | ⟨i, v, q, -, -, hq, -, -, rfl⟩ |
    ⟨i, v, q, -, -, hq, -, -, rfl⟩ | ⟨i, v, -, -, -, rfl⟩ |
    ⟨i, v, links, -, -, -, -, rfl⟩ | ⟨i, v, links, -, -, -, -, rfl⟩ |
    ⟨i, -, -, -, rfl⟩
  · refine ⟨hu, ?_⟩
    show q.count u ≤ s.queue.count u
    rw [hq, List.count_cons]
    omega
  · refine ⟨List.mem_cons_of_mem v hu, ?_⟩
    show q.count u ≤ s.queue.count u
    rw [hq, List.count_cons]
    omega
  · refine ⟨List.mem_cons_of_mem v hu, ?_⟩
    show q.count u ≤ s.queue.count u
    rw [hq, List.count_cons]
    omega
  · exact ⟨hu, le_refl _⟩
  · exact ⟨hu, le_refl _⟩
  · refine ⟨hu, ?_⟩
    show (s.queue ++ links.filter
      (fun l => same_site l (build_ctx cfg.rootUrl) &&
        !(decide (l ∈ s.seen)))).count u ≤ s.queue.count u
    have hz : (links.filter
        (fun l => same_site l (build_ctx cfg.rootUrl) &&
          !(decide (l ∈ s.seen)))).count u = 0 := by
      rw [List.count_eq_zero]
      intro hmem
      have h3 := (List.mem_filter.mp hmem).2
      have h4 := (Bool.and_eq_true _ _ |>.mp h3).2
      rw [Bool.not_eq_true'] at h4
      exact absurd hu (by simpa using h4)
    rw [List.count_append, hz]
    omega
  · exact ⟨hu, le_refl _⟩

theorem queue_count_run (cfg : CrawlConfig) (u : String) :
    ∀ (acts : List CrawlAct) (s s' : BfsState), u ∈ s.seen →
      runFrom cfg s acts = some s' →
      u ∈ s'.seen ∧ s'.queue.count u ≤ s.queue.count u := by
  intro acts
  induction acts with
  | nil =>
    intro s s' hu hr
    unfold runFrom at hr
    exact Option.some_inj.mp hr ▸ ⟨hu, le_refl _⟩
  | cons a rest ih =>
    intro s s' hu hr
    unfold runFrom at hr
    cases hstep : crawlStep cfg s a with
    | none =>
      rw [hstep] at hr
      exact absurd hr (by simp)
    | some s2 =>
      rw [hstep] at hr
      obtain ⟨hu2, hc2⟩ := queue_count_step cfg s s2 a u hstep hu
      obtain ⟨hu3, hc3⟩ := ih s2 s' hu2 hr
      exact ⟨hu3, le_trans hc3 hc2⟩

/-- C4: once a URL is in seen, no worker ever re-enqueues it — across any
further schedule the frontier's count of it never grows — and in every
reachable state each URL occurs at most once in the fetch log (fetched at
most once) and at most once in results (counted at most once), for every
interleaving of the workers. -/
theorem claim4_seen_no_requeue (cfg : CrawlConfig)
    (acts1 acts2 : List CrawlAct) (s s' : BfsState) (u : String)
    (hmp : 1 ≤ cfg.maxPages) (hrun : runCrawl cfg acts1 = some s)
    (hu : u ∈ s.seen) (hrun2 : runFrom cfg s acts2 = some s') :
    s'.queue.count u ≤ s.queue.count u ∧ s'.fetchLog.count u ≤ 1 ∧
    s'.results.count u ≤ 1 := by
  have hI := inv_runFrom cfg acts2 s s' (inv_run cfg hmp acts1 s hrun) hrun2
  have hq := queue_count_run cfg u acts2 s s' hu hrun2
  refine ⟨hq.2, ?_, ?_⟩
  · exact List.nodup_iff_count_le_one.mp hI.logNodup u
  · exact List.nodup_iff_count_le_one.mp hI.resNodup u

theorem claim4_witness :
    (⟨[], ["https://a.c/b", "https://a.c/"],
        ["https://a.c/b", "https://a.c/"], [WStatus.done],
        ["https://a.c/", "https://a.c/b"]⟩ : BfsState).queue.count
        "https://a.c/" ≤
      (⟨["https://a.c/b"], ["https://a.c/"], ["https://a.c/"],
        [WStatus.waitingGet], ["https://a.c/"]⟩ : BfsState).queue.count
        "https://a.c/" ∧
    (⟨[], ["https://a.c/b", "https://a.c/"],
        ["https://a.c/b", "https://a.c/"], [WStatus.done],
        ["https://a.c/", "https://a.c/b"]⟩ : BfsState).fetchLog.count
        "https://a.c/" ≤ 1 ∧
    (⟨[], ["https://a.c/b", "https://a.c/"],
        ["https://a.c/b", "https://a.c/"], [WStatus.done],
        ["https://a.c/", "https://a.c/b"]⟩ : BfsState).results.count
        "https://a.c/" ≤ 1 :=
  claim4_seen_no_requeue cfgCycle [CrawlAct.recv 0, CrawlAct.finish 0]
    [CrawlAct.recv 0, CrawlAct.finish 0, CrawlAct.idle 0]
    ⟨["https://a.c/b"], ["https://a.c/"], ["https://a.c/"],
      [WStatus.waitingGet], ["https://a.c/"]⟩
    ⟨[], ["https://a.c/b", "https://a.c/"],
      ["https://a.c/b", "https://a.c/"], [WStatus.done],
      ["https://a.c/", "https://a.c/b"]⟩
    "https://a.c/" (by decide) (by decide) (by decide) (by decide)


/-! ## Termination -/

theorem wWeight_afterSkip_le (cfg : CrawlConfig) (r : List String) :
    wWeight cfg (afterSkip cfg r) ≤ 1 := by
  unfold afterSkip
  split
  · exact le_refl 1
  · exact Nat.zero_le 1

theorem linkCount_lt_bigC (cfg : CrawlConfig) (dom : List String)
    (u : String) (hu : u ∈ urlSpace cfg dom) :
    linkCount cfg u + 1 ≤ bigC cfg dom := by
  unfold bigC
  have h1 : linkCount cfg u ∈ (urlSpace cfg dom).map (linkCount cfg) :=
    List.mem_map_of_mem _ hu
  have h2 := List.single_le_sum
    (fun (x : Nat) (_ : x ∈ (urlSpace cfg dom).map (linkCount cfg)) =>
      Nat.zero_le x) _ h1
  omega

theorem card_sdiff_insert_seen (U seen : List String) (u : String)
    (hu : u ∈ U) (hns : u ∉ seen) :
    (U.toFinset \ (u :: seen).toFinset).card + 1 =
      (U.toFinset \ seen.toFinset).card := by
  have h1 : (u :: seen).toFinset = insert u seen.toFinset := by
    simp
  have hm : u ∈ U.toFinset \ seen.toFinset := by
    rw [Finset.mem_sdiff]
    exact ⟨List.mem_toFinset.mpr hu, fun hc => hns (List.mem_toFinset.mp hc)⟩
  have hpos : 1 ≤ (U.toFinset \ seen.toFinset).card :=
    Finset.card_pos.mpr ⟨u, hm⟩
  rw [h1, Finset.sdiff_insert, Finset.card_erase_of_mem hm]
  omega

theorem card_sdiff_cons_le (U seen : List String) (u : String) :
    (U.toFinset \ (u :: seen).toFinset).card ≤
      (U.toFinset \ seen.toFinset).card := by
  apply Finset.card_le_card
  apply Finset.sdiff_subset_sdiff (Finset.Subset.refl _)
  simp only [List.toFinset_cons]
  exact Finset.subset_insert _ _

theorem phi_step (cfg : CrawlConfig) (dom : List String) (s s' : BfsState)
    (a : CrawlAct) (hdom : ∀ v ls, cfg.graph v = some ls → v ∈ dom)
    (hQ : QueueInU cfg dom s) (h : crawlStep cfg s a = some s') :
    QueueInU cfg dom s' ∧ phi cfg dom s' < phi cfg dom s := by
  have hsum := sum_map_set (wWeight cfg) s.workers
  rcases crawlStep_cases cfg s a s' h with
    ⟨i, u, q, -, hwi, hq, -, rfl⟩ | ⟨i, u, q, -, hwi, hq, hseen, -, rfl⟩ |
    ⟨i, u, q, -, hwi, hq, hseen, -, rfl⟩ | ⟨i, u, -, hwi, -, rfl⟩ |
    ⟨i, u, links, -, hwi, hg, -, rfl⟩ | ⟨i, u, links, -, hwi, hg, -, rfl⟩ |
    ⟨i, -, hwi, -, rfl⟩
  · -- receive, already seen
    constructor
    · intro v hv
      dsimp only at hv
      exact hQ v (by rw [hq]; exact List.mem_cons_of_mem u hv)
    · unfold phi
      dsimp only
      rw [hq]
      simp only [List.length_cons]
      have heq := hsum i (afterSkip cfg s.results) WStatus.waitingGet hwi
      have hw1 : wWeight cfg (afterSkip cfg s.results) ≤ 1 :=
        wWeight_afterSkip_le cfg s.results
      simp only [show wWeight cfg WStatus.waitingGet = 1 from rfl] at heq
      omega
  · -- receive, fresh, fetch begins
    have huU : u ∈ urlSpace cfg dom := hQ u (by
      rw [hq]
      exact List.mem_cons_self u q)
    constructor
    · intro v hv
      dsimp only at hv
      exact hQ v (by rw [hq]; exact List.mem_cons_of_mem u hv)
    · unfold phi
      dsimp only
      rw [hq]
      simp only [List.length_cons]
      have heq := hsum i (WStatus.fetching u) WStatus.waitingGet hwi
      have hcard := card_sdiff_insert_seen (urlSpace cfg dom) s.seen u
        huU hseen
      have hlt := linkCount_lt_bigC cfg dom u huU
      simp only [show wWeight cfg WStatus.waitingGet = 1 from rfl,
        show wWeight cfg (WStatus.fetching u) = 2 + linkCount cfg u
          from rfl] at heq
      rw [← hcard, Nat.mul_add, Nat.mul_one]
      omega
  · -- receive, fresh, filtered out
    constructor
    · intro v hv
      dsimp only at hv
      exact hQ v (by rw [hq]; exact List.mem_cons_of_mem u hv)
    · unfold phi
      dsimp only
      rw [hq]
      simp only [List.length_cons]
      have heq := hsum i (afterSkip cfg s.results) WStatus.waitingGet hwi
      have hw1 : wWeight cfg (afterSkip cfg s.results) ≤ 1 :=
        wWeight_afterSkip_le cfg s.results
      have hle := card_sdiff_cons_le (urlSpace cfg dom) s.seen u
      have hmul := Nat.mul_le_mul_left (bigC cfg dom) hle
      simp only [show wWeight cfg WStatus.waitingGet = 1 from rfl] at heq
      omega
  · -- fetch fails or is not HTML
    constructor
    · intro v hv
      dsimp only at hv
      exact hQ v hv
    · unfold phi
      dsimp only
      have heq := hsum i (afterSkip cfg s.results) (WStatus.fetching u) hwi
      have hw1 : wWeight cfg (afterSkip cfg s.results) ≤ 1 :=
        wWeight_afterSkip_le cfg s.results
      simp only [show wWeight cfg (WStatus.fetching u) = 2 + linkCount cfg u
        from rfl] at heq
      omega
  · -- fetch lands, cap reached
    constructor
    · intro v hv
      dsimp only at hv
      exact hQ v hv
    · unfold phi
      dsimp only
      have heq := hsum i WStatus.done (WStatus.fetching u) hwi
      simp only [show wWeight cfg (WStatus.fetching u) = 2 + linkCount cfg u
        from rfl, show wWeight cfg WStatus.done = 0 from rfl] at heq
      omega
  · -- fetch lands under the cap
    constructor
    · intro v hv
      dsimp only at hv
      rcases List.mem_append.mp hv with hv1 | hv2
      · exact hQ v hv1
      · have hvl : v ∈ links := (List.mem_filter.mp hv2).1
        unfold urlSpace
        apply List.mem_append.mpr
        right
        apply List.mem_flatMap.mpr
        refine ⟨u, hdom u links hg, ?_⟩
        rw [hg]
        exact hvl
    · unfold phi
      dsimp only
      have heq := hsum i WStatus.waitingGet (WStatus.fetching u) hwi
      have hlc : linkCount cfg u = links.length := by
        unfold linkCount
        rw [hg]
      have hfl := List.length_filter_le
        (fun l => same_site l (build_ctx cfg.rootUrl) &&
          !(decide (l ∈ s.seen))) links
      simp only [show wWeight cfg (WStatus.fetching u) = 2 + linkCount cfg u
        from rfl, show wWeight cfg WStatus.waitingGet = 1 from rfl] at heq
      rw [List.length_append]
      omega
  · -- queue empty, the worker times out
    constructor
    · intro v hv
      dsimp only at hv
      exact hQ v hv
    · unfold phi
      dsimp only
      have heq := hsum i WStatus.done WStatus.waitingGet hwi
      simp only [show wWeight cfg WStatus.waitingGet = 1 from rfl,
        show wWeight cfg WStatus.done = 0 from rfl] at heq
      omega

theorem initState_queueInU (cfg : CrawlConfig) (dom : List String) :
    QueueInU cfg dom (initState cfg) := by
  intro v hv
  unfold urlSpace
  exact List.mem_append.mpr (Or.inl hv)

theorem phi_runFrom (cfg : CrawlConfig) (dom : List String)
    (hdom : ∀ v ls, cfg.graph v = some ls → v ∈ dom) :
    ∀ (acts : List CrawlAct) (s s' : BfsState), QueueInU cfg dom s →
      runFrom cfg s acts = some s' →
      acts.length + phi cfg dom s' ≤ phi cfg dom s := by
  intro acts
  induction acts with
  | nil =>
    intro s s' hQ hr
    unfold runFrom at hr
    rw [Option.some_inj.mp hr]
    simp
  | cons a rest ih =>
    intro s s' hQ hr
    unfold runFrom at hr
    cases hstep : crawlStep cfg s a with
    | none =>
      rw [hstep] at hr
      exact absurd hr (by simp)
    | some s2 =>
      rw [hstep] at hr
      obtain ⟨hQ2, hlt⟩ := phi_step cfg dom s s2 a hdom hQ hstep
      have h2 := ih s2 s' hQ2 hr
      simp only [List.length_cons]
      omega

/-- C3: on every finite site graph — cycles included — the crawl
terminates: any schedule it can execute is no longer than the initial value
of the measure phi (crawlBound), and along the way no page is fetched twice
and no URL is duplicated in results. -/
theorem claim3_termination (cfg : CrawlConfig) (dom : List String)
    (acts : List CrawlAct) (s : BfsState) (hmp : 1 ≤ cfg.maxPages)
    (hdom : ∀ v ls, cfg.graph v = some ls → v ∈ dom)
    (hrun : runCrawl cfg acts = some s) :
    acts.length ≤ crawlBound cfg dom ∧ s.fetchLog.Nodup ∧
      s.results.Nodup := by
  have hI := inv_run cfg hmp acts s hrun
  have hb := phi_runFrom cfg dom hdom acts (initState cfg) s
    (initState_queueInU cfg dom) hrun
  refine ⟨?_, hI.logNodup, hI.resNodup⟩
  unfold crawlBound
  omega

theorem claim3_witness :
    actsCycle.length ≤ crawlBound cfgCycle domCycle ∧
    (⟨[], ["https://a.c/b", "https://a.c/"],
        ["https://a.c/b", "https://a.c/"], [WStatus.done],
        ["https://a.c/", "https://a.c/b"]⟩ : BfsState).fetchLog.Nodup ∧
    (⟨[], ["https://a.c/b", "https://a.c/"],
        ["https://a.c/b", "https://a.c/"], [WStatus.done],
        ["https://a.c/", "https://a.c/b"]⟩ : BfsState).results.Nodup :=
  claim3_termination cfgCycle domCycle actsCycle
    ⟨[], ["https://a.c/b", "https://a.c/"],
      ["https://a.c/b", "https://a.c/"], [WStatus.done],
      ["https://a.c/", "https://a.c/b"]⟩
    (by decide)
    (by
      intro v ls hg
      by_cases h1 : v = "https://a.c/"
      · subst h1
        decide
      · by_cases h2 : v = "https://a.c/b"
        · subst h2
          decide
        · exfalso
          have hnone : cfgCycle.graph v = none := by
            show (if v = "https://a.c/" then some ["https://a.c/b"]
              else if v = "https://a.c/b" then some ["https://a.c/"]
              else none) = none
            rw [if_neg h1, if_neg h2]
          rw [hnone] at hg
          exact Option.noConfusion hg)
    (by decide)


/-! ## The seed cap -/

theorem avoid_step (cfg : CrawlConfig) (u : String) (s s' : BfsState)
    (a : CrawlAct)
    (hlinks : ∀ v ls, cfg.graph v = some ls → u ∉ ls)
    (hq : u ∉ s.queue) (hf : u ∉ s.fetchLog) (hr : u ∉ s.results)
    (hw : ∀ (i : Nat) (v : String), s.workers[i]? = some (WStatus.fetching v) → v ≠ u)
    (h : crawlStep cfg s a = some s') :
    u ∉ s'.queue ∧ u ∉ s'.fetchLog ∧ u ∉ s'.results ∧
    (∀ (i : Nat) (v : String),
      s'.workers[i]? = some (WStatus.fetching v) → v ≠ u) := by
  rcases crawlStep_cases cfg s a s' h with
    ⟨i, v, q, -, -, hqe, -, rfl⟩ | ⟨i, v, q, -, -, hqe, -, -, rfl⟩ |
    ⟨i, v, q, -, -, hqe, -, -, rfl⟩ | ⟨i, v, -, -, -, rfl⟩ |
    ⟨i, v, links, -, hwi, -, -, rfl⟩ | ⟨i, v, links, -, hwi, hg, -, rfl⟩ |
    ⟨i, -, -, -, rfl⟩
  · refine ⟨fun hu => hq (by rw [hqe]; exact List.mem_cons_of_mem v hu),
      hf, hr, ?_⟩
    intro j w hj
    dsimp only at hj
    rcases getElem_set_cases _ i j _ _ hj with ⟨-, hv⟩ | ⟨-, hj2⟩
    · exact absurd hv.symm (afterSkip_not_fetching cfg s.results w)
    · exact hw j w hj2
  · have hvu : v ≠ u := fun he =>
      hq (by rw [hqe, he]; exact List.mem_cons_self u q)
    refine ⟨fun hu => hq (by rw [hqe]; exact List.mem_cons_of_mem v hu),
      ?_, hr, ?_⟩
    · intro hu
      dsimp only at hu
      rcases List.mem_append.mp hu with hu1 | hu2
      · exact hf hu1
      · rw [List.mem_singleton] at hu2
        exact hvu hu2.symm
    · intro j w hj
      dsimp only at hj
      rcases getElem_set_cases _ i j _ _ hj with ⟨-, hv⟩ | ⟨-, hj2⟩
      · have : w = v := by
          injection hv
        exact this ▸ hvu
      · exact hw j w hj2
  · refine ⟨fun hu => hq (by rw [hqe]; exact List.mem_cons_of_mem v hu),
      hf, hr, ?_⟩
    intro j w hj
    dsimp only at hj
    rcases getElem_set_cases _ i j _ _ hj with ⟨-, hv⟩ | ⟨-, hj2⟩
    · exact absurd hv.symm (afterSkip_not_fetching cfg s.results w)
    · exact hw j w hj2
  · refine ⟨hq, hf, hr, ?_⟩
    intro j w hj
    dsimp only at hj
    rcases getElem_set_cases _ i j _ _ hj with ⟨-, hv⟩ | ⟨-, hj2⟩
    · exact absurd hv.symm (afterSkip_not_fetching cfg s.results w)
    · exact hw j w hj2
  · have hvu : v ≠ u := hw i v hwi
    refine ⟨hq, hf, ?_, ?_⟩
    · intro hu
      dsimp only at hu
      rcases insertSet_mem hu with he | hu2
      · exact hvu he.symm
      · exact hr hu2
    · intro j w hj
      dsimp only at hj
      rcases getElem_set_cases _ i j _ _ hj with ⟨-, hv⟩ | ⟨-, hj2⟩
      · exact absurd hv (by simp)
      · exact hw j w hj2
  · have hvu : v ≠ u := hw i v hwi
    refine ⟨?_, hf, ?_, ?_⟩
    · intro hu
      dsimp only at hu
      rcases List.mem_append.mp hu with hu1 | hu2
      · exact hq hu1
      · exact hlinks v links hg ((List.mem_filter.mp hu2).1)
    · intro hu
      dsimp only at hu
      rcases insertSet_mem hu with he | hu2
      · exact hvu he.symm
      · exact hr hu2
    · intro j w hj
      dsimp only at hj
      rcases getElem_set_cases _ i j _ _ hj with ⟨-, hv⟩ | ⟨-, hj2⟩
      · exact absurd hv (by simp)
      · exact hw j w hj2
  · refine ⟨hq, hf, hr, ?_⟩
    intro j w hj
    dsimp only at hj
    rcases getElem_set_cases _ i j _ _ hj with ⟨-, hv⟩ | ⟨-, hj2⟩
    · exact absurd hv (by simp)
    · exact hw j w hj2

theorem avoid_run (cfg : CrawlConfig) (u : String)
    (hlinks : ∀ v ls, cfg.graph v = some ls → u ∉ ls) :
    ∀ (acts : List CrawlAct) (s s' : BfsState),
      u ∉ s.queue → u ∉ s.fetchLog → u ∉ s.results →
      (∀ (i : Nat) (v : String),
        s.workers[i]? = some (WStatus.fetching v) → v ≠ u) →
      runFrom cfg s acts = some s' →
      u ∉ s'.queue ∧ u ∉ s'.fetchLog ∧ u ∉ s'.results := by
  intro acts
  induction acts with
  | nil =>
    intro s s' hq hf hr hw hrun
    unfold runFrom at hrun
    rw [← Option.some_inj.mp hrun]
    exact ⟨hq, hf, hr⟩
  | cons a rest ih =>
    intro s s' hq hf hr hw hrun
    unfold runFrom at hrun
    cases hstep : crawlStep cfg s a with
    | none =>
      rw [hstep] at hrun
      exact absurd hrun (by simp)
    | some s2 =>
      rw [hstep] at hrun
      obtain ⟨h1, h2, h3, h4⟩ :=
        avoid_step cfg u s s2 a hlinks hq hf hr hw hstep
      exact ih s2 s' h1 h2 h3 h4 hrun

/-- C10: the frontier is seeded with the normalized root and then only the
first seedBound = max(100, maxPages / 2) discovered seed URLs; a URL
outside that initial frontier which no crawled page serves as a link is
never fetched and never enters the frontier or results.  The spec's
unconditional "never fetched" for beyond-the-bound seeds fails: a page
link can re-discover such a seed (see the counterexample). -/
theorem claim10_seed_cap (cfg : CrawlConfig) (acts : List CrawlAct)
    (s : BfsState) (u : String)
    (hq : u ∉ (initState cfg).queue)
    (hlinks : ∀ v ls, cfg.graph v = some ls → u ∉ ls)
    (hrun : runCrawl cfg acts = some s) :
    (initState cfg).queue = (build_ctx cfg.rootUrl).root ::
      cfg.seedUrls.take (seedBound cfg.maxPages) ∧
    u ∉ s.fetchLog ∧ u ∉ s.queue ∧ u ∉ s.results := by
  have hwi : ∀ (i : Nat) (v : String), (initState cfg).workers[i]? =
      some (WStatus.fetching v) → v ≠ u := by
    intro i v hj
    exfalso
    have hrep : (initState cfg).workers =
        List.replicate cfg.concurrency
          (if 0 < cfg.maxPages then WStatus.waitingGet else WStatus.done) :=
      rfl
    rw [hrep, List.getElem?_replicate] at hj
    by_cases hi : i < cfg.concurrency
    · rw [if_pos hi] at hj
      have h2 := Option.some_inj.mp hj
      by_cases hb : 0 < cfg.maxPages
      · rw [if_pos hb] at h2
        exact absurd h2 (by simp)
      · rw [if_neg hb] at h2
        exact absurd h2 (by simp)
    · rw [if_neg hi] at hj
      exact absurd hj (by simp)
  obtain ⟨h1, h2, h3⟩ := avoid_run cfg u hlinks acts (initState cfg) s hq
    (List.not_mem_nil u) (List.not_mem_nil u) hwi hrun
  exact ⟨rfl, h2, h1, h3⟩

/-- C10 counterexample: 101 discovered seeds; the one-hundred-and-first is
beyond the seed cap (only the first hundred fillers are enqueued), yet the
completed crawl fetches it because the root page links to it. -/
theorem claim10_counterexample :
    cfgSeedCap.seedUrls.take (seedBound cfgSeedCap.maxPages) =
      seedFillers ∧
    "https://a.c/x" ∈ cfgSeedCap.seedUrls ∧
    "https://a.c/x" ∉ seedFillers ∧
    (runCrawl cfgSeedCap actsSeedCap).map
      (fun s => decide ("https://a.c/x" ∈ s.fetchLog) && allDone s) =
      some true := by
  exact ⟨by decide, by decide, by decide, by decide⟩

theorem claim10_witness :
    (initState cfgUnreachable).queue =
      (build_ctx cfgUnreachable.rootUrl).root ::
        cfgUnreachable.seedUrls.take (seedBound cfgUnreachable.maxPages) ∧
    "https://b.d/" ∉ (⟨[], ["https://a.c/"], [], [WStatus.done],
      ["https://a.c/"]⟩ : BfsState).fetchLog ∧
    "https://b.d/" ∉ (⟨[], ["https://a.c/"], [], [WStatus.done],
      ["https://a.c/"]⟩ : BfsState).queue ∧
    "https://b.d/" ∉ (⟨[], ["https://a.c/"], [], [WStatus.done],
      ["https://a.c/"]⟩ : BfsState).results :=
  claim10_seed_cap cfgUnreachable actsUnreachable
    ⟨[], ["https://a.c/"], [], [WStatus.done], ["https://a.c/"]⟩
    "https://b.d/" (by decide) (fun v ls hg => Option.noConfusion hg)
    (by decide)

end Scrapper
